import Mathlib

/- Verification of the pumpkin-patch square-merge engine (src/graph.rs).

   The Rust source is shallowly embedded:
   * `u16`/`usize` index arithmetic is modelled two ways. The exact-`Nat`
     definitions (`PumpkinPatch.index` and what is built on it) read the
     u16 multiply-adds as unbounded `Nat`; the wrapping definitions
     (`PumpkinPatch.indexU` and the `W` family built on it, plus `mkId`
     for the identity value `y * size + x + 1`) carry the source's
     explicit `% 65536` wrap of release builds (debug builds panic on the
     overflow instead). The two readings are proved to coincide for grid
     sides ≤ 256 (`addW_eq`), the range in which every cell index
     `y * size + x` stays below 2^16; at grid side 257 they diverge and
     the wrapping reading is the faithful one.
   * `BitVec` bitmaps become `List Bool`; `Vec<Option<NonZeroU16>>`
     becomes `List (Option Nat)` where `none` is the vacant marker and the
     stored payload is the nonzero numeric identity.
   * `BitVec::and(&mut self, other) -> bool` returns whether `self`
     changed; `andChanged` mirrors that.
   * The `Rc<LookupTable>` is immutable shared data: `LookupTable::new`
     tabulates, at index `sq.idx`, exactly `sq.next_larger_squares` (the
     entries are emitted in index order and sliced back out by the same
     index) and `sq.bitmap` (asserted equal in `add` by a debug assert), so
     `get_larger`/`get_bitmap` are embedded as the functions they tabulate.
   * The `while let Some(square) = stack.pop()` loop is embedded as a
     fuel-indexed recursion (`searchLoop`); the fuel `size³` used by `add`
     is shown sufficient where the loop's result is reasoned about.
   * `debug_assert!(!self.contains(x, y))` at the top of `add` is the
     guard of `addChecked`; `add` is the body that runs when it passes. -/

namespace Pumpkins

/-- `Square` from graph.rs: top-left corner `(x, y)` and side length.
The Rust field `size : NonZeroU16` is modelled as a plain `Nat`; its
positivity is carried by `Square.Valid` where it matters. -/
structure Square where
  x : Nat
  y : Nat
  size : Nat
deriving DecidableEq

/-- A square that fits in an N×N grid: `size ≥ 1`, `x + size ≤ N`,
`y + size ≤ N`. -/
def Square.Valid (N : Nat) (sq : Square) : Prop :=
  1 ≤ sq.size ∧ sq.x + sq.size ≤ N ∧ sq.y + sq.size ≤ N

instance (N : Nat) (sq : Square) : Decidable (sq.Valid N) := by
  unfold Square.Valid
  infer_instance

/-- `Square::contains`: membership of a cell in the half-open range
`[x, x+size) × [y, y+size)`. -/
def Square.contains (sq : Square) (x y : Nat) : Bool :=
  decide (sq.x ≤ x) && decide (x < sq.x + sq.size) &&
    decide (sq.y ≤ y) && decide (y < sq.y + sq.size)

/-- `Square::bitmap`: the length-`N²` occupancy bitmap of the square, bit
`i` covering the cell `(i % N, i / N)`. -/
def Square.bitmap (sq : Square) (gridSize : Nat) : List Bool :=
  (List.range (gridSize * gridSize)).map fun i =>
    sq.contains (i % gridSize) (i / gridSize)

/-- `Square::next_larger_squares`: enumerates the squares of side
`size + 1` with top-left corner in the rectangle
`[x - size, min (x) (N-size-1)] × [y - size, min (y) (N-size-1)]`
(saturating subtraction, exactly as in the source). -/
def Square.nextLargerSquares (sq : Square) (gridSize : Nat) : List Square :=
  if sq.size = gridSize then [] else
  let newSize := sq.size + 1
  let minX := sq.x - (newSize - 1)
  let maxX := if sq.x + newSize ≤ gridSize then sq.x else sq.x - 1
  let minY := sq.y - (newSize - 1)
  let maxY := if sq.y + newSize ≤ gridSize then sq.y else sq.y - 1
  (List.range' minX (maxX + 1 - minX)).flatMap fun a =>
    (List.range' minY (maxY + 1 - minY)).map fun b =>
      ⟨a, b, newSize⟩

/-- `Square::idx`: the perfect-hash index `x + y·N + (size−1)·N²`
(computed in `usize` in the source, hence exact). -/
def Square.idx (sq : Square) (gridSize : Nat) : Nat :=
  sq.x + sq.y * gridSize + (sq.size - 1) * gridSize * gridSize

/-- `Square::from_index`: inverse of the perfect hash. -/
def Square.fromIndex (idx gridSize : Nat) : Square :=
  let size := idx / (gridSize * gridSize)
  let rest := idx % (gridSize * gridSize)
  ⟨rest % gridSize, rest / gridSize, size + 1⟩

/-- `LookupTable::get_larger`: the table stores, at index `sq.idx`,
exactly `sq.next_larger_squares` (see header comment). -/
def LookupTable.getLarger (gridSize : Nat) (sq : Square) : List Square :=
  sq.nextLargerSquares gridSize

/-- `LookupTable::get_bitmap`: the table stores, at index `sq.idx`,
exactly `sq.bitmap` (the source debug-asserts this equality in `add`). -/
def LookupTable.getBitmap (gridSize : Nat) (sq : Square) : List Bool :=
  sq.bitmap gridSize

/-- `PumpkinPatch` from graph.rs: occupancy bitmap, row-major ids,
column-major ids, grid side. The shared read-only `Rc<LookupTable>` is
embedded as the pure functions above and hence not part of the mutable
state. -/
structure PumpkinPatch where
  bitmap : List Bool
  ids : List (Option Nat)
  ids_transposed : List (Option Nat)
  size : Nat
deriving DecidableEq

/-- `PumpkinPatch::new`: empty patch, all cells vacant. -/
def PumpkinPatch.new (size : Nat) : PumpkinPatch :=
  ⟨List.replicate (size * size) false,
   List.replicate (size * size) none,
   List.replicate (size * size) none,
   size⟩

/-- Well-formedness: the three arrays have their constructed length
`size²` (true of every patch built by `new` and preserved by `add`). -/
def PumpkinPatch.WF (p : PumpkinPatch) : Prop :=
  p.bitmap.length = p.size * p.size ∧
    p.ids.length = p.size * p.size ∧
    p.ids_transposed.length = p.size * p.size

instance (p : PumpkinPatch) : Decidable p.WF := by
  unfold PumpkinPatch.WF
  infer_instance

/-- `PumpkinPatch::index`: row-major cell index `y * size + x` (a u16
multiply-add in the source; this exact-`Nat` reading coincides with the
wrapping `indexU` below whenever the grid side is at most 256, since the
largest cell index is `size² − 1`). -/
def PumpkinPatch.index (p : PumpkinPatch) (x y : Nat) : Nat :=
  y * p.size + x

/-- `PumpkinPatch::get`: identity of the region holding `(x, y)`. -/
def PumpkinPatch.get (p : PumpkinPatch) (x y : Nat) : Option Nat :=
  p.ids.getD (p.index x y) none

/-- `PumpkinPatch::contains`: is the cell planted. -/
def PumpkinPatch.containsCell (p : PumpkinPatch) (x y : Nat) : Bool :=
  p.bitmap.getD (p.index x y) false

/-- The slice `&l[a..a+len]` of the source. -/
def slice (l : List (Option Nat)) (a len : Nat) : List (Option Nat) :=
  (l.drop a).take len

/-- The edge test of `check_boundary`:
`inside.iter().zip(outside.iter()).any(|(a, b)| b.is_some() && a == b)`. -/
def edgeHit (inside outside : List (Option Nat)) : Bool :=
  (inside.zip outside).any fun ab => ab.2.isSome && ab.1 == ab.2

/-- North-edge rejection of `check_boundary` (guard `sq.y < size - sq.size`,
row `y+size-1` inside against row `y+size` outside, `size` cells from
column `x`, read from the row-major `ids`). -/
def northHit (p : PumpkinPatch) (sq : Square) : Bool :=
  decide (sq.y < p.size - sq.size) &&
    edgeHit (slice p.ids ((sq.y + sq.size - 1) * p.size + sq.x) sq.size)
      (slice p.ids ((sq.y + sq.size) * p.size + sq.x) sq.size)

/-- South-edge rejection (guard `sq.y > 0`, row `y` inside against row
`y-1` outside). -/
def southHit (p : PumpkinPatch) (sq : Square) : Bool :=
  decide (0 < sq.y) &&
    edgeHit (slice p.ids (sq.y * p.size + sq.x) sq.size)
      (slice p.ids ((sq.y - 1) * p.size + sq.x) sq.size)

/-- East-edge rejection (guard `sq.x < size - sq.size`, column `x+size-1`
inside against column `x+size` outside, read from `ids_transposed`). -/
def eastHit (p : PumpkinPatch) (sq : Square) : Bool :=
  decide (sq.x < p.size - sq.size) &&
    edgeHit (slice p.ids_transposed ((sq.x + sq.size - 1) * p.size + sq.y) sq.size)
      (slice p.ids_transposed ((sq.x + sq.size) * p.size + sq.y) sq.size)

/-- West-edge rejection (guard `sq.x > 0`, column `x` inside against
column `x-1` outside, read from `ids_transposed`). -/
def westHit (p : PumpkinPatch) (sq : Square) : Bool :=
  decide (0 < sq.x) &&
    edgeHit (slice p.ids_transposed (sq.x * p.size + sq.y) sq.size)
      (slice p.ids_transposed ((sq.x - 1) * p.size + sq.y) sq.size)

/-- `PumpkinPatch::check_boundary`: the candidate passes iff no edge
fires (the source returns `false` from whichever edge fires first; the
disjunction is that early-return chain). -/
def checkBoundary (p : PumpkinPatch) (sq : Square) : Bool :=
  !(northHit p sq || southHit p sq || eastHit p sq || westHit p sq)

/-- `BitVec::and(&mut a, &b) -> bool` returns whether `a` changed, i.e.
whether some bit is set in `a` and clear in `b`. -/
def andChanged (a b : List Bool) : Bool :=
  (a.zip b).any fun xy => xy.1 && !xy.2

/-- The mutable locals of the DFS in `PumpkinPatch::add`: the explicit
stack (head = top of the `Vec`), the `visited` bitset over square indices,
and the current record holder. -/
structure SearchState where
  stack : List Square
  visited : List Bool
  largest : Square

/-- One iteration of the `while let Some(square) = stack.pop()` loop of
`add`, for popped `square` (the state holds the remaining stack): if the
square's bitmap is unchanged by AND with the occupancy bitmap (i.e. the
square is fully planted), push its unvisited next-larger squares, mark
them visited, and take the square as the new record if it is strictly
larger and passes `check_boundary`; otherwise do nothing. -/
def searchStep (p : PumpkinPatch) (square : Square) (st : SearchState) :
    SearchState :=
  if !andChanged (LookupTable.getBitmap p.size square) p.bitmap then
    let neighbors := (LookupTable.getLarger p.size square).filter fun sq =>
      !(st.visited.getD (sq.idx p.size) false)
    let visited := neighbors.foldl (fun v sq => v.set (sq.idx p.size) true)
      st.visited
    let stack := neighbors.reverse ++ st.stack
    let largest :=
      if square.size > st.largest.size && checkBoundary p square then square
      else st.largest
    ⟨stack, visited, largest⟩
  else st

/-- The DFS loop of `add`, as a fuel-indexed recursion; `add` passes fuel
`size³`, which is shown sufficient (each iteration pops one entry and
pushes only freshly visited squares). -/
def searchLoop (p : PumpkinPatch) : Nat → SearchState → Square
  | _, ⟨[], _, largest⟩ => largest
  | 0, st => st.largest
  | fuel + 1, ⟨square :: rest, visited, largest⟩ =>
    searchLoop p fuel (searchStep p square ⟨rest, visited, largest⟩)

/-- The identity written by `add`:
`NonZeroU16::new(largest.y * size + largest.x + 1)`, computed in `u16`
(wraps at 2^16; a wrapped 0 makes `NonZeroU16::new` return `None`). -/
def mkId (gridSize x y : Nat) : Option Nat :=
  let v := (y * gridSize + x + 1) % 65536
  if v = 0 then none else some v

/-- The cells written by the fill loop of `add`, in loop order
(`for y in sq.y..sq.y+size { for x in sq.x..sq.x+size }`), as `(x, y)`
pairs. -/
def sqCells (sq : Square) : List (Nat × Nat) :=
  (List.range' sq.y sq.size).flatMap fun y =>
    (List.range' sq.x sq.size).map fun x => (x, y)

/-- The fill loop at the end of `add`: writes `id` at `y*size+x` in `ids`
and at `x*size+y` in `ids_transposed` for every cell of the square (the
two arrays are written independently, so the nested loop is folded over
each array separately). -/
def fillIds (p : PumpkinPatch) (sq : Square) (id : Option Nat) :
    PumpkinPatch :=
  { p with
    ids := (sqCells sq).foldl
      (fun l c => l.set (c.2 * p.size + c.1) id) p.ids
    ids_transposed := (sqCells sq).foldl
      (fun l c => l.set (c.1 * p.size + c.2) id) p.ids_transposed }

/-- `PumpkinPatch::add` after its debug assertion: plant the cell, run
the DFS from the unit square, then record the winner's identity over its
footprint. Returns the winning square and the new state. -/
def add (p : PumpkinPatch) (x y : Nat) : Square × PumpkinPatch :=
  let p1 : PumpkinPatch := { p with bitmap := p.bitmap.set (p.index x y) true }
  let start : Square := ⟨x, y, 1⟩
  let sz := p1.size
  let visited0 := (List.replicate (sz * sz * sz) false).set (start.idx sz) true
  let largest := searchLoop p1 (sz * sz * sz) ⟨[start], visited0, start⟩
  let p2 := fillIds p1 largest (mkId p1.size largest.x largest.y)
  (largest, p2)

/-- `PumpkinPatch::add` including its entry assertion
`debug_assert!(!self.contains(x, y))`: a planted cell fails the
precondition and the call is flagged rather than run. -/
def addChecked (p : PumpkinPatch) (x y : Nat) :
    Option (Square × PumpkinPatch) :=
  if p.containsCell x y then none else some (add p x y)

/-- Fold a sequence of insertions, keeping only the final state. -/
def addAll (p : PumpkinPatch) (order : List (Nat × Nat)) : PumpkinPatch :=
  order.foldl (fun q c => (add q c.1 c.2).2) p

/-- Fold a sequence of insertions, recording every returned square. -/
def addTrace (p : PumpkinPatch) (order : List (Nat × Nat)) :
    List Square × PumpkinPatch :=
  order.foldl
    (fun acc c =>
      let r := add acc.2 c.1 c.2
      (acc.1 ++ [r.1], r.2))
    ([], p)

/-- All cells of the N×N grid (row-major order). -/
def allCells (N : Nat) : List (Nat × Nat) :=
  (List.range (N * N)).map fun i => (i % N, i / N)

/-- The unique valid square of side N in the N-grid. -/
def fullSq (N : Nat) : Square :=
  ⟨0, 0, N⟩

/-- Run a sequence of insertions through `addChecked`, so every
insertion's precondition (cell unplanted) is checked; returns the list of
returned squares, or `none` if some insertion was rejected. -/
def addSquaresChecked (p : PumpkinPatch) :
    List (Nat × Nat) → Option (List Square)
  | [] => some []
  | c :: rest =>
    match addChecked p c.1 c.2 with
    | none => none
    | some r =>
      match addSquaresChecked r.2 rest with
      | none => none
      | some l => some (r.1 :: l)

/-! ### The u16 cell-index arithmetic of the source

`PumpkinPatch` stores its side as `u16`, and every cell index into the
patch arrays — `index`, the slice bases of `check_boundary`, and the
fill-loop positions — is a `u16` multiply-add cast to `usize` only
afterwards, so in release builds the computation wraps at 2^16 (debug
builds panic on the overflow) as soon as some cell index `y * size + x`
reaches 65536, which first happens at grid side 257. The `W` definitions
below embed that wrapping arithmetic; they coincide with the exact-`Nat`
definitions above whenever the grid side is at most 256 (proved below as
`addW_eq`), the range in which every cell index stays below 2^16. -/

/-- `PumpkinPatch::index` as the source computes it: `y * size + x` in
`u16`, wrapping at 2^16 before the cast to `usize`. -/
def PumpkinPatch.indexU (p : PumpkinPatch) (x y : Nat) : Nat :=
  (y * p.size + x) % 65536

/-- `check_boundary`'s north edge with the source's u16 slice bases. -/
def northHitW (p : PumpkinPatch) (sq : Square) : Bool :=
  decide (sq.y < p.size - sq.size) &&
    edgeHit
      (slice p.ids (((sq.y + sq.size - 1) * p.size + sq.x) % 65536) sq.size)
      (slice p.ids (((sq.y + sq.size) * p.size + sq.x) % 65536) sq.size)

/-- `check_boundary`'s south edge with the source's u16 slice bases. -/
def southHitW (p : PumpkinPatch) (sq : Square) : Bool :=
  decide (0 < sq.y) &&
    edgeHit (slice p.ids ((sq.y * p.size + sq.x) % 65536) sq.size)
      (slice p.ids (((sq.y - 1) * p.size + sq.x) % 65536) sq.size)

/-- `check_boundary`'s east edge with the source's u16 slice bases. -/
def eastHitW (p : PumpkinPatch) (sq : Square) : Bool :=
  decide (sq.x < p.size - sq.size) &&
    edgeHit
      (slice p.ids_transposed
        (((sq.x + sq.size - 1) * p.size + sq.y) % 65536) sq.size)
      (slice p.ids_transposed
        (((sq.x + sq.size) * p.size + sq.y) % 65536) sq.size)

/-- `check_boundary`'s west edge with the source's u16 slice bases. -/
def westHitW (p : PumpkinPatch) (sq : Square) : Bool :=
  decide (0 < sq.x) &&
    edgeHit (slice p.ids_transposed ((sq.x * p.size + sq.y) % 65536) sq.size)
      (slice p.ids_transposed (((sq.x - 1) * p.size + sq.y) % 65536) sq.size)

/-- `check_boundary` with the source's u16 index arithmetic. -/
def checkBoundaryW (p : PumpkinPatch) (sq : Square) : Bool :=
  !(northHitW p sq || southHitW p sq || eastHitW p sq || westHitW p sq)

/-- One DFS iteration of `add` with the source's u16 index arithmetic
(only `check_boundary` reads cell indices inside the loop; the square
index `Square::idx` is `usize` arithmetic and stays exact). -/
def searchStepW (p : PumpkinPatch) (square : Square) (st : SearchState) :
    SearchState :=
  if !andChanged (LookupTable.getBitmap p.size square) p.bitmap then
    let neighbors := (LookupTable.getLarger p.size square).filter fun sq =>
      !(st.visited.getD (sq.idx p.size) false)
    let visited := neighbors.foldl (fun v sq => v.set (sq.idx p.size) true)
      st.visited
    let stack := neighbors.reverse ++ st.stack
    let largest :=
      if square.size > st.largest.size && checkBoundaryW p square then square
      else st.largest
    ⟨stack, visited, largest⟩
  else st

/-- The DFS loop of `add` with the source's u16 index arithmetic. -/
def searchLoopW (p : PumpkinPatch) : Nat → SearchState → Square
  | _, ⟨[], _, largest⟩ => largest
  | 0, st => st.largest
  | fuel + 1, ⟨square :: rest, visited, largest⟩ =>
    searchLoopW p fuel (searchStepW p square ⟨rest, visited, largest⟩)

/-- The fill loop of `add` with the source's u16 positions
`(y * self.size + x) as usize` and `(x * self.size + y) as usize`. -/
def fillIdsW (p : PumpkinPatch) (sq : Square) (id : Option Nat) :
    PumpkinPatch :=
  { p with
    ids := (sqCells sq).foldl
      (fun l c => l.set ((c.2 * p.size + c.1) % 65536) id) p.ids
    ids_transposed := (sqCells sq).foldl
      (fun l c => l.set ((c.1 * p.size + c.2) % 65536) id) p.ids_transposed }

/-- `PumpkinPatch::add` with the source's u16 cell-index arithmetic: the
occupancy bit is set at the wrapped index `indexU`, the DFS consults
`check_boundary` through the wrapped slice bases, and the fill loop
writes at wrapped positions. Coincides with `add` for grid sides ≤ 256
(`addW_eq` below). -/
def addW (p : PumpkinPatch) (x y : Nat) : Square × PumpkinPatch :=
  let p1 : PumpkinPatch := { p with bitmap := p.bitmap.set (p.indexU x y) true }
  let start : Square := ⟨x, y, 1⟩
  let sz := p1.size
  let visited0 := (List.replicate (sz * sz * sz) false).set (start.idx sz) true
  let largest := searchLoopW p1 (sz * sz * sz) ⟨[start], visited0, start⟩
  let p2 := fillIdsW p1 largest (mkId p1.size largest.x largest.y)
  (largest, p2)

/-- Fold a sequence of u16-arithmetic insertions, keeping the final
state. -/
def addAllW (p : PumpkinPatch) (order : List (Nat × Nat)) : PumpkinPatch :=
  order.foldl (fun q c => (addW q c.1 c.2).2) p

/-- Fold a sequence of u16-arithmetic insertions, recording every
returned square. -/
def addTraceW (p : PumpkinPatch) (order : List (Nat × Nat)) :
    List Square × PumpkinPatch :=
  order.foldl
    (fun acc c =>
      let r := addW acc.2 c.1 c.2
      (acc.1 ++ [r.1], r.2))
    ([], p)

/-- A growth chain from the unit square at `(x, y)` towards the full
square: each step enlarges the side by one, clamping the corner so the
square keeps fitting in the grid. -/
def growChain (N x y : Nat) : Nat → Square
  | 0 => ⟨x, y, 1⟩
  | i + 1 =>
    let c := growChain N x y i
    ⟨min c.x (N - (c.size + 1)), min c.y (N - (c.size + 1)), c.size + 1⟩

/-- Number of unvisited entries of the DFS `visited` bitset. -/
def unvisitedCount (v : List Bool) : Nat :=
  v.count false

/-- The square's entry in the `visited` bitset is clear. -/
def Unvisited (N : Nat) (v : List Bool) (S : Square) : Prop :=
  v.getD (S.idx N) false = false

/-- There is a `next_larger` path from `S` to the full square whose
strictly-later nodes are all unvisited (and all nodes valid). -/
def ChainTo (N : Nat) (v : List Bool) (S : Square) : Prop :=
  ∃ (k : Nat) (f : Nat → Square),
    f 0 = S ∧ f k = fullSq N ∧
    (∀ i, i < k → f (i + 1) ∈ LookupTable.getLarger N (f i)) ∧
    (∀ i, 0 < i → i ≤ k → Unvisited N v (f i)) ∧
    (∀ i, i ≤ k → (f i).Valid N)

/-- Invariant of the DFS loop used for the full-grid theorem: stack
members and record holder are valid, the visited bitset has its
constructed length, and either the record holder is already the full
square or some stack member still reaches it through unvisited nodes. -/
def SearchInv (N : Nat) (st : SearchState) : Prop :=
  (∀ S ∈ st.stack, S.Valid N) ∧ st.largest.Valid N ∧
    st.visited.length = N * N * N ∧
    (st.largest = fullSq N ∨ ∃ S ∈ st.stack, ChainTo N st.visited S)

/-! ## Generic list lemmas used throughout -/

theorem getD_set_self {α : Type} {l : List α} {i : Nat} {a d : α}
    (h : i < l.length) : (l.set i a).getD i d = a := by
  rw [List.getD_eq_getElem _ _ (by simpa using h)]
  exact List.getElem_set_self _

theorem getD_set_ne {α : Type} {l : List α} {i j : Nat} {a d : α}
    (h : i ≠ j) : (l.set i a).getD j d = l.getD j d := by
  by_cases hj : j < l.length
  · rw [List.getD_eq_getElem _ _ (by simpa using hj),
      List.getD_eq_getElem _ _ hj]
    exact List.getElem_set_ne h _
  · rw [List.getD_eq_default _ _ (by simpa using Nat.le_of_not_lt hj),
      List.getD_eq_default _ _ (Nat.le_of_not_lt hj)]

theorem getD_replicate {α : Type} {n i : Nat} {a : α} :
    (List.replicate n a).getD i a = a := by
  by_cases h : i < n
  · rw [List.getD_eq_getElem _ _ (by simpa using h)]
    exact List.getElem_replicate _ _
  · exact List.getD_eq_default _ _ (by simpa using Nat.le_of_not_lt h)

theorem zip_any_iff {α β : Type} {f : α × β → Bool} (d₁ : α) (d₂ : β) :
    ∀ {l₁ : List α} {l₂ : List β},
      ((l₁.zip l₂).any f = true ↔
        ∃ i, i < l₁.length ∧ i < l₂.length ∧
          f (l₁.getD i d₁, l₂.getD i d₂) = true)
  | [], l₂ => by simp
  | a :: l₁, [] => by simp
  | a :: l₁, b :: l₂ => by
    rw [List.zip_cons_cons, List.any_cons]
    constructor
    · intro h
      rcases Bool.or_eq_true_iff.mp h with h | h
      · exact ⟨0, by simp, by simp, by simpa using h⟩
      · obtain ⟨i, h1, h2, h3⟩ := (zip_any_iff d₁ d₂).mp h
        exact ⟨i + 1, by simpa using h1, by simpa using h2, by simpa using h3⟩
    · rintro ⟨i, h1, h2, h3⟩
      rcases i with _ | i
      · exact Bool.or_eq_true_iff.mpr (Or.inl (by simpa using h3))
      · refine Bool.or_eq_true_iff.mpr (Or.inr ?_)
        exact (zip_any_iff d₁ d₂).mpr
          ⟨i, by simpa using h1, by simpa using h2, by simpa using h3⟩

theorem slice_getD {l : List (Option Nat)} {a s i : Nat}
    (hi : i < s) (hb : a + s ≤ l.length) :
    (slice l a s).getD i none = l.getD (a + i) none := by
  unfold slice
  have h1 : i < ((l.drop a).take s).length := by
    simp only [List.length_take, List.length_drop]
    omega
  have h2 : a + i < l.length := by omega
  rw [List.getD_eq_getElem _ _ h1, List.getD_eq_getElem _ _ h2]
  rw [List.getElem_take, List.getElem_drop]

theorem slice_length {l : List (Option Nat)} {a s : Nat}
    (hb : a + s ≤ l.length) : (slice l a s).length = s := by
  simp only [slice, List.length_take, List.length_drop]
  omega

theorem edgeHit_slice_iff {l l' : List (Option Nat)} {a b s : Nat}
    (ha : a + s ≤ l.length) (hb : b + s ≤ l'.length) :
    edgeHit (slice l a s) (slice l' b s) = true ↔
      ∃ i, i < s ∧ (l'.getD (b + i) none).isSome = true ∧
        l.getD (a + i) none = l'.getD (b + i) none := by
  unfold edgeHit
  rw [zip_any_iff (none : Option Nat) (none : Option Nat)]
  constructor
  · rintro ⟨i, h1, h2, h3⟩
    rw [slice_length ha] at h1
    rw [slice_getD h1 ha, slice_getD h1 hb] at h3
    rw [Bool.and_eq_true] at h3
    exact ⟨i, h1, h3.1, by simpa using h3.2⟩
  · rintro ⟨i, h1, h2, h3⟩
    refine ⟨i, by rw [slice_length ha]; exact h1, by rw [slice_length hb]; exact h1, ?_⟩
    rw [slice_getD h1 ha, slice_getD h1 hb, Bool.and_eq_true]
    exact ⟨h2, by simpa using h3⟩

/-! ## The perfect hash (Square::idx / Square::from_index) -/

theorem idx_lt {N : Nat} {sq : Square} (hv : sq.Valid N) :
    sq.idx N < N * N * N := by
  obtain ⟨h1, h2, h3⟩ := hv
  have hx : sq.x < N := by omega
  have hy : sq.y < N := by omega
  unfold Square.idx
  calc sq.x + sq.y * N + (sq.size - 1) * N * N
      < N + sq.y * N + (sq.size - 1) * N * N := by omega
    _ = (sq.y + 1) * N + (sq.size - 1) * N * N := by ring
    _ ≤ N * N + (sq.size - 1) * N * N := by
        have := Nat.mul_le_mul (show sq.y + 1 ≤ N by omega) (Nat.le_refl N)
        omega
    _ = (1 + (sq.size - 1)) * (N * N) := by ring
    _ ≤ N * (N * N) := by
        have := Nat.mul_le_mul (show 1 + (sq.size - 1) ≤ N by omega)
          (Nat.le_refl (N * N))
        omega
    _ = N * N * N := by ring

theorem fromIndex_idx {N : Nat} {sq : Square}
    (hx : sq.x < N) (hy : sq.y < N) (hs : 1 ≤ sq.size) :
    Square.fromIndex (sq.idx N) N = sq := by
  obtain ⟨X, Y, S⟩ := sq
  replace hx : X < N := hx
  replace hy : Y < N := hy
  replace hs : 1 ≤ S := hs
  have hN : 0 < N := by omega
  have hrest : X + Y * N < N * N := by
    calc X + Y * N < N + Y * N := by omega
      _ = (Y + 1) * N := by ring
      _ ≤ N * N := Nat.mul_le_mul (by omega) (Nat.le_refl N)
  have hre : X + Y * N + (S - 1) * N * N = X + Y * N + (S - 1) * (N * N) := by
    ring
  have hmod : (Square.idx ⟨X, Y, S⟩ N) % (N * N) = X + Y * N := by
    show (X + Y * N + (S - 1) * N * N) % (N * N) = X + Y * N
    rw [hre, Nat.add_mul_mod_self_right, Nat.mod_eq_of_lt hrest]
  have hdiv : (Square.idx ⟨X, Y, S⟩ N) / (N * N) = S - 1 := by
    show (X + Y * N + (S - 1) * N * N) / (N * N) = S - 1
    rw [hre, Nat.add_mul_div_right _ _ (Nat.mul_pos hN hN),
      Nat.div_eq_of_lt hrest, Nat.zero_add]
  have hmod2 : (X + Y * N) % N = X := by
    rw [Nat.add_mul_mod_self_right, Nat.mod_eq_of_lt hx]
  have hdiv2 : (X + Y * N) / N = Y := by
    rw [Nat.add_mul_div_right _ _ hN, Nat.div_eq_of_lt hx, Nat.zero_add]
  have hfrom : Square.fromIndex (Square.idx ⟨X, Y, S⟩ N) N =
      ⟨(X + Y * N) % N, (X + Y * N) / N, (S - 1) + 1⟩ := by
    simp only [Square.fromIndex, hmod, hdiv]
  rw [hfrom, hmod2, hdiv2]
  simp only [Square.mk.injEq]
  exact ⟨trivial, trivial, by omega⟩

theorem idx_inj {N : Nat} {sq sq' : Square}
    (h : sq.Valid N) (h' : sq'.Valid N) (heq : sq.idx N = sq'.idx N) :
    sq = sq' := by
  have e1 : Square.fromIndex (sq.idx N) N = sq :=
    fromIndex_idx (by obtain ⟨a, b, c⟩ := h; omega)
      (by obtain ⟨a, b, c⟩ := h; omega) h.1
  have e2 : Square.fromIndex (sq'.idx N) N = sq' :=
    fromIndex_idx (by obtain ⟨a, b, c⟩ := h'; omega)
      (by obtain ⟨a, b, c⟩ := h'; omega) h'.1
  rw [← e1, ← e2, heq]

/-! ## Characterisation of next_larger_squares -/

theorem contains_iff {sq : Square} {x y : Nat} :
    sq.contains x y = true ↔
      sq.x ≤ x ∧ x < sq.x + sq.size ∧ sq.y ≤ y ∧ y < sq.y + sq.size := by
  simp [Square.contains, and_assoc]

theorem mem_nextLarger_iff {N : Nat} {sq T : Square} (hv : sq.Valid N) :
    T ∈ sq.nextLargerSquares N ↔
      sq.size < N ∧ T.size = sq.size + 1 ∧
        sq.x - sq.size ≤ T.x ∧ T.x ≤ sq.x ∧ T.x + T.size ≤ N ∧
        sq.y - sq.size ≤ T.y ∧ T.y ≤ sq.y ∧ T.y + T.size ≤ N := by
  obtain ⟨h1, h2, h3⟩ := hv
  by_cases hsz : sq.size = N
  · simp only [Square.nextLargerSquares, if_pos hsz]
    simp
    omega
  · have hlt : sq.size < N := by omega
    obtain ⟨tx, ty, ts⟩ := T
    by_cases hx : sq.x + (sq.size + 1) ≤ N <;>
      by_cases hy : sq.y + (sq.size + 1) ≤ N <;>
      · simp only [Square.nextLargerSquares, if_neg hsz, List.mem_flatMap,
          List.mem_map, List.mem_range'_1, Square.mk.injEq]
        simp only [if_pos, if_neg, hx, hy, if_true, if_false]
        constructor
        · rintro ⟨a, ha, b, hb, rfl, rfl, rfl⟩
          exact ⟨hlt, rfl, by omega⟩
        · rintro ⟨-, rfl, hb⟩
          exact ⟨tx, by omega, ty, by omega, rfl, rfl, rfl⟩

theorem nextLarger_valid {N : Nat} {sq T : Square}
    (hv : sq.Valid N) (hm : T ∈ sq.nextLargerSquares N) : T.Valid N := by
  obtain ⟨hs, he, hb⟩ := (mem_nextLarger_iff hv).mp hm
  exact ⟨by omega, by omega, by omega⟩

/-! ## Folding List.set over a list of indices -/

theorem length_foldl_set {α β : Type} (f : β → Nat) (val : α) :
    ∀ (cs : List β) (l : List α),
      (cs.foldl (fun acc c => acc.set (f c) val) l).length = l.length
  | [], _ => rfl
  | c :: cs, l => by
    rw [List.foldl_cons, length_foldl_set f val cs, List.length_set]

theorem getD_foldl_set {α β : Type} (f : β → Nat) (val d : α) :
    ∀ (cs : List β) (l : List α) (i : Nat),
      (cs.foldl (fun acc c => acc.set (f c) val) l).getD i d =
        if (∃ c ∈ cs, f c = i) ∧ i < l.length then val else l.getD i d
  | [], l, i => by simp
  | c :: cs, l, i => by
    rw [List.foldl_cons, getD_foldl_set f val d cs, List.length_set]
    by_cases htail : (∃ c' ∈ cs, f c' = i) ∧ i < l.length
    · rw [if_pos htail]
      obtain ⟨⟨c', hc', hfc'⟩, hlen⟩ := htail
      rw [if_pos ⟨⟨c', List.mem_cons_of_mem c hc', hfc'⟩, hlen⟩]
    · rw [if_neg htail]
      by_cases hhead : f c = i ∧ i < l.length
      · rcases hhead with ⟨hfc, hlen⟩
        rw [hfc, getD_set_self hlen,
          if_pos ⟨⟨c, List.mem_cons_self c cs, hfc⟩, hlen⟩]
      · by_cases hlen : i < l.length
        · have hne : f c ≠ i := fun h => hhead ⟨h, hlen⟩
          rw [getD_set_ne hne, if_neg]
          rintro ⟨⟨c', hc', hfc'⟩, -⟩
          rcases List.mem_cons.mp hc' with rfl | hc'
          · exact hne hfc'
          · exact htail ⟨⟨c', hc', hfc'⟩, hlen⟩
        · rw [if_neg (fun h => hlen h.2)]
          rw [List.getD_eq_default _ _ (by
            rw [List.length_set]; exact Nat.le_of_not_lt hlen),
            List.getD_eq_default _ _ (Nat.le_of_not_lt hlen)]

theorem count_false_set {v : List Bool} {i : Nat}
    (hlen : i < v.length) (hv : v.getD i false = false) :
    (v.set i true).count false + 1 = v.count false := by
  have hvi : v[i] = false := by rwa [List.getD_eq_getElem _ _ hlen] at hv
  have hmem : false ∈ v := hvi ▸ List.getElem_mem hlen
  have hpos : 0 < v.count false := List.count_pos_iff.mpr hmem
  rw [List.count_set _ _ _ _ hlen]
  simp [hvi]
  omega

/-! ## The boundary check, edge by edge -/

theorem row_bound {N r x s : Nat} (hr : r < N) (hxs : x + s ≤ N) :
    r * N + x + s ≤ N * N := by
  calc r * N + x + s ≤ r * N + N := by omega
    _ = (r + 1) * N := by ring
    _ ≤ N * N := Nat.mul_le_mul (by omega) (Nat.le_refl N)

theorem hit_iff {g : Prop} [Decidable g] {l l' : List (Option Nat)}
    {a b s : Nat}
    (ha : g → a + s ≤ l.length) (hb : g → b + s ≤ l'.length) :
    (decide g && edgeHit (slice l a s) (slice l' b s)) = true ↔
      g ∧ ∃ i, i < s ∧ (l'.getD (b + i) none).isSome = true ∧
        l.getD (a + i) none = l'.getD (b + i) none := by
  rw [Bool.and_eq_true, decide_eq_true_iff]
  constructor
  · rintro ⟨hg, hh⟩
    exact ⟨hg, (edgeHit_slice_iff (ha hg) (hb hg)).mp hh⟩
  · rintro ⟨hg, hh⟩
    exact ⟨hg, (edgeHit_slice_iff (ha hg) (hb hg)).mpr hh⟩

theorem northHit_iff {p : PumpkinPatch} {sq : Square}
    (hwf : p.WF) (hv : sq.Valid p.size) :
    northHit p sq = true ↔
      sq.y + sq.size < p.size ∧ ∃ i, i < sq.size ∧
        (p.ids.getD ((sq.y + sq.size) * p.size + sq.x + i) none).isSome = true ∧
        p.ids.getD ((sq.y + sq.size - 1) * p.size + sq.x + i) none =
          p.ids.getD ((sq.y + sq.size) * p.size + sq.x + i) none := by
  obtain ⟨hbl, hil, htl⟩ := hwf
  obtain ⟨h1, h2, h3⟩ := hv
  unfold northHit
  rw [hit_iff (fun hg => by
      rw [hil]; exact row_bound (show sq.y + sq.size - 1 < p.size by omega) h2)
    (fun hg => by
      rw [hil]
      exact row_bound (show sq.y + sq.size < p.size by omega) h2)]
  constructor
  · rintro ⟨hg, hh⟩
    exact ⟨by omega, hh⟩
  · rintro ⟨hg, hh⟩
    exact ⟨by omega, hh⟩

theorem southHit_iff {p : PumpkinPatch} {sq : Square}
    (hwf : p.WF) (hv : sq.Valid p.size) :
    southHit p sq = true ↔
      0 < sq.y ∧ ∃ i, i < sq.size ∧
        (p.ids.getD ((sq.y - 1) * p.size + sq.x + i) none).isSome = true ∧
        p.ids.getD (sq.y * p.size + sq.x + i) none =
          p.ids.getD ((sq.y - 1) * p.size + sq.x + i) none := by
  obtain ⟨hbl, hil, htl⟩ := hwf
  obtain ⟨h1, h2, h3⟩ := hv
  unfold southHit
  rw [hit_iff (fun hg => by
      rw [hil]; exact row_bound (show sq.y < p.size by omega) h2)
    (fun hg => by
      rw [hil]; exact row_bound (show sq.y - 1 < p.size by omega) h2)]

theorem eastHit_iff {p : PumpkinPatch} {sq : Square}
    (hwf : p.WF) (hv : sq.Valid p.size) :
    eastHit p sq = true ↔
      sq.x + sq.size < p.size ∧ ∃ i, i < sq.size ∧
        (p.ids_transposed.getD ((sq.x + sq.size) * p.size + sq.y + i) none).isSome = true ∧
        p.ids_transposed.getD ((sq.x + sq.size - 1) * p.size + sq.y + i) none =
          p.ids_transposed.getD ((sq.x + sq.size) * p.size + sq.y + i) none := by
  obtain ⟨hbl, hil, htl⟩ := hwf
  obtain ⟨h1, h2, h3⟩ := hv
  unfold eastHit
  rw [hit_iff (fun hg => by
      rw [htl]; exact row_bound (show sq.x + sq.size - 1 < p.size by omega) h3)
    (fun hg => by
      rw [htl]; exact row_bound (show sq.x + sq.size < p.size by omega) h3)]
  constructor
  · rintro ⟨hg, hh⟩
    exact ⟨by omega, hh⟩
  · rintro ⟨hg, hh⟩
    exact ⟨by omega, hh⟩

theorem westHit_iff {p : PumpkinPatch} {sq : Square}
    (hwf : p.WF) (hv : sq.Valid p.size) :
    westHit p sq = true ↔
      0 < sq.x ∧ ∃ i, i < sq.size ∧
        (p.ids_transposed.getD ((sq.x - 1) * p.size + sq.y + i) none).isSome = true ∧
        p.ids_transposed.getD (sq.x * p.size + sq.y + i) none =
          p.ids_transposed.getD ((sq.x - 1) * p.size + sq.y + i) none := by
  obtain ⟨hbl, hil, htl⟩ := hwf
  obtain ⟨h1, h2, h3⟩ := hv
  unfold westHit
  rw [hit_iff (fun hg => by
      rw [htl]; exact row_bound (show sq.x < p.size by omega) h3)
    (fun hg => by
      rw [htl]; exact row_bound (show sq.x - 1 < p.size by omega) h3)]

/-! ## Claim C1 -/

/-- C1: `check_boundary` accepts a candidate square of side `s` at `(x, y)`
iff no edge triggers rejection, where the north edge (checked only when
`y + s < N`) pairs inside row `y+s-1` against outside row `y+s` over the
`s` positions starting at `x`, and symmetrically south (`y > 0`), east
(`x + s < N`) and west (`x > 0`, both on the transposed identity array);
an edge fires exactly when some outside cell carries a non-empty identity
equal to the paired inside cell's identity. -/
theorem check_boundary_characterization (p : PumpkinPatch) (sq : Square)
    (hwf : p.WF) (hv : sq.Valid p.size) :
    checkBoundary p sq = true ↔
      ¬((sq.y + sq.size < p.size ∧ ∃ i, i < sq.size ∧
          (p.ids.getD ((sq.y + sq.size) * p.size + sq.x + i) none).isSome = true ∧
          p.ids.getD ((sq.y + sq.size - 1) * p.size + sq.x + i) none =
            p.ids.getD ((sq.y + sq.size) * p.size + sq.x + i) none) ∨
        (0 < sq.y ∧ ∃ i, i < sq.size ∧
          (p.ids.getD ((sq.y - 1) * p.size + sq.x + i) none).isSome = true ∧
          p.ids.getD (sq.y * p.size + sq.x + i) none =
            p.ids.getD ((sq.y - 1) * p.size + sq.x + i) none) ∨
        (sq.x + sq.size < p.size ∧ ∃ i, i < sq.size ∧
          (p.ids_transposed.getD ((sq.x + sq.size) * p.size + sq.y + i) none).isSome = true ∧
          p.ids_transposed.getD ((sq.x + sq.size - 1) * p.size + sq.y + i) none =
            p.ids_transposed.getD ((sq.x + sq.size) * p.size + sq.y + i) none) ∨
        (0 < sq.x ∧ ∃ i, i < sq.size ∧
          (p.ids_transposed.getD ((sq.x - 1) * p.size + sq.y + i) none).isSome = true ∧
          p.ids_transposed.getD (sq.x * p.size + sq.y + i) none =
            p.ids_transposed.getD ((sq.x - 1) * p.size + sq.y + i) none)) := by
  have hN := northHit_iff hwf hv
  have hS := southHit_iff hwf hv
  have hE := eastHit_iff hwf hv
  have hW := westHit_iff hwf hv
  have hN' := Bool.eq_false_iff.trans (not_congr hN)
  have hS' := Bool.eq_false_iff.trans (not_congr hS)
  have hE' := Bool.eq_false_iff.trans (not_congr hE)
  have hW' := Bool.eq_false_iff.trans (not_congr hW)
  rw [checkBoundary, Bool.not_eq_true']
  simp only [Bool.or_eq_false_iff]
  rw [hN', hS', hE', hW']
  constructor
  · rintro ⟨⟨⟨hn, hs⟩, he⟩, hw⟩ h
    rcases h with h | h | h | h
    exacts [hn h, hs h, he h, hw h]
  · intro h
    exact ⟨⟨⟨fun hn => h (Or.inl hn), fun hs => h (Or.inr (Or.inl hs))⟩,
      fun he => h (Or.inr (Or.inr (Or.inl he)))⟩,
      fun hw => h (Or.inr (Or.inr (Or.inr hw)))⟩

/-- C1 witness: the characterisation applied to the unit square of the
empty 1×1 patch. -/
theorem check_boundary_characterization_witness :
    (PumpkinPatch.new 1).WF ∧ Square.Valid (PumpkinPatch.new 1).size ⟨0, 0, 1⟩ ∧
      (checkBoundary (PumpkinPatch.new 1) ⟨0, 0, 1⟩ = true ↔
        ¬((0 + 1 < (PumpkinPatch.new 1).size ∧ ∃ i, i < 1 ∧
            ((PumpkinPatch.new 1).ids.getD ((0 + 1) * (PumpkinPatch.new 1).size + 0 + i) none).isSome = true ∧
            (PumpkinPatch.new 1).ids.getD ((0 + 1 - 1) * (PumpkinPatch.new 1).size + 0 + i) none =
              (PumpkinPatch.new 1).ids.getD ((0 + 1) * (PumpkinPatch.new 1).size + 0 + i) none) ∨
          (0 < 0 ∧ ∃ i, i < 1 ∧
            ((PumpkinPatch.new 1).ids.getD ((0 - 1) * (PumpkinPatch.new 1).size + 0 + i) none).isSome = true ∧
            (PumpkinPatch.new 1).ids.getD (0 * (PumpkinPatch.new 1).size + 0 + i) none =
              (PumpkinPatch.new 1).ids.getD ((0 - 1) * (PumpkinPatch.new 1).size + 0 + i) none) ∨
          (0 + 1 < (PumpkinPatch.new 1).size ∧ ∃ i, i < 1 ∧
            ((PumpkinPatch.new 1).ids_transposed.getD ((0 + 1) * (PumpkinPatch.new 1).size + 0 + i) none).isSome = true ∧
            (PumpkinPatch.new 1).ids_transposed.getD ((0 + 1 - 1) * (PumpkinPatch.new 1).size + 0 + i) none =
              (PumpkinPatch.new 1).ids_transposed.getD ((0 + 1) * (PumpkinPatch.new 1).size + 0 + i) none) ∨
          (0 < 0 ∧ ∃ i, i < 1 ∧
            ((PumpkinPatch.new 1).ids_transposed.getD ((0 - 1) * (PumpkinPatch.new 1).size + 0 + i) none).isSome = true ∧
            (PumpkinPatch.new 1).ids_transposed.getD (0 * (PumpkinPatch.new 1).size + 0 + i) none =
              (PumpkinPatch.new 1).ids_transposed.getD ((0 - 1) * (PumpkinPatch.new 1).size + 0 + i) none))) :=
  ⟨by decide, by decide,
    check_boundary_characterization (PumpkinPatch.new 1) ⟨0, 0, 1⟩
      (by decide) (by decide)⟩

/-! ## Claim C2 -/

/-- C2 counterexample: with only (0, 0) planted on a 3×3 patch, popping the
not-fully-planted square (0, 0, 2) pushes nothing and marks nothing, even
though its next-larger square (0, 0, 3) is unvisited — expansion does not
happen for a square that is not fully planted. -/
theorem expansion_is_gated_cex :
    ((⟨0, 0, 3⟩ : Square) ∈ LookupTable.getLarger 3 ⟨0, 0, 2⟩) ∧
    andChanged (LookupTable.getBitmap 3 ⟨0, 0, 2⟩)
      (add (PumpkinPatch.new 3) 0 0).2.bitmap = true ∧
    (List.replicate 27 false).getD (Square.idx ⟨0, 0, 3⟩ 3) false = false ∧
    (searchStep (add (PumpkinPatch.new 3) 0 0).2 ⟨0, 0, 2⟩
      ⟨[], List.replicate 27 false, ⟨0, 0, 1⟩⟩).stack = [] ∧
    (searchStep (add (PumpkinPatch.new 3) 0 0).2 ⟨0, 0, 2⟩
      ⟨[], List.replicate 27 false, ⟨0, 0, 1⟩⟩).visited.getD
        (Square.idx ⟨0, 0, 3⟩ 3) false = false := by
  decide

/-- C2 (amended): expansion is occupancy-gated exactly like the candidate
comparison: when the popped square is not fully planted the loop body
leaves the state untouched (nothing is pushed or marked); when it is fully
planted, every unvisited next-larger square is pushed and marked
visited. -/
theorem searchStep_expansion (p : PumpkinPatch) (S : Square)
    (st : SearchState) :
    (andChanged (LookupTable.getBitmap p.size S) p.bitmap = true →
      searchStep p S st = st) ∧
    (andChanged (LookupTable.getBitmap p.size S) p.bitmap = false →
      ∀ T, T ∈ LookupTable.getLarger p.size S →
        T.idx p.size < st.visited.length →
        st.visited.getD (T.idx p.size) false = false →
        T ∈ (searchStep p S st).stack ∧
          (searchStep p S st).visited.getD (T.idx p.size) false = true) := by
  constructor
  · intro h
    simp [searchStep, h]
  · intro h T hmem hlen hunvis
    have hTn : T ∈ (LookupTable.getLarger p.size S).filter fun sq =>
        !(st.visited.getD (sq.idx p.size) false) := by
      rw [List.mem_filter]
      exact ⟨hmem, by rw [hunvis]; rfl⟩
    constructor
    · simp only [searchStep, h, Bool.not_false, if_true]
      exact List.mem_append.mpr (Or.inl (List.mem_reverse.mpr hTn))
    · simp only [searchStep, h, Bool.not_false, if_true]
      rw [getD_foldl_set]
      rw [if_pos ⟨⟨T, hTn, rfl⟩, hlen⟩]

/-- C2 witness for the amended statement: popping the fully planted unit
square (0, 0, 1) after inserting (0, 0) into a 2×2 patch pushes and marks
its unvisited next-larger square (0, 0, 2). -/
theorem searchStep_expansion_witness :
    (andChanged (LookupTable.getBitmap (add (PumpkinPatch.new 2) 0 0).2.size
        ⟨0, 0, 1⟩) (add (PumpkinPatch.new 2) 0 0).2.bitmap = false) ∧
    ((⟨0, 0, 2⟩ : Square) ∈ LookupTable.getLarger
        (add (PumpkinPatch.new 2) 0 0).2.size ⟨0, 0, 1⟩) ∧
    ((⟨0, 0, 2⟩ : Square) ∈ (searchStep (add (PumpkinPatch.new 2) 0 0).2
        ⟨0, 0, 1⟩ ⟨[], List.replicate 8 false, ⟨0, 0, 1⟩⟩).stack ∧
      (searchStep (add (PumpkinPatch.new 2) 0 0).2 ⟨0, 0, 1⟩
        ⟨[], List.replicate 8 false, ⟨0, 0, 1⟩⟩).visited.getD
          (Square.idx ⟨0, 0, 2⟩ (add (PumpkinPatch.new 2) 0 0).2.size) false = true) :=
  ⟨by decide, by decide,
    (searchStep_expansion (add (PumpkinPatch.new 2) 0 0).2 ⟨0, 0, 1⟩
      ⟨[], List.replicate 8 false, ⟨0, 0, 1⟩⟩).2 (by decide) ⟨0, 0, 2⟩
      (by decide) (by decide) (by decide)⟩

/-! ## Claim C3 -/

/-- C3: a twelve-insertion run on a 4×4 patch, every insertion on an
in-range unplanted cell (checked by `addSquaresChecked`), whose final
insertion at (3, 3) returns the square (0, 0, 3) — a square that does not
contain the inserted cell, contradicting the source's own doc comment for
`add` ("the largest square containing (x, y)"). -/
theorem add_returns_square_missing_cell :
    addSquaresChecked (PumpkinPatch.new 4)
        [(2, 2), (2, 1), (1, 2), (1, 1), (1, 0), (0, 1), (0, 0), (2, 0),
          (0, 2), (2, 3), (3, 2), (3, 3)] =
      some [⟨2, 2, 1⟩, ⟨2, 1, 1⟩, ⟨1, 2, 1⟩, ⟨1, 1, 2⟩, ⟨1, 0, 1⟩, ⟨0, 1, 1⟩,
        ⟨0, 0, 1⟩, ⟨2, 0, 1⟩, ⟨0, 0, 3⟩, ⟨2, 3, 1⟩, ⟨3, 2, 1⟩, ⟨0, 0, 3⟩] ∧
      (⟨0, 0, 3⟩ : Square).contains 3 3 = false := by
  decide

/-! ## Claims C5, C6, C7, C8, C9 -/

/-- C5: the two recorded small-grid traces: on a fresh 2×2 patch the four
insertions return the three unit squares and then (0, 0, 2); on a fresh
3×3 patch the nine insertions return exactly the listed squares, ending
with the full-grid square (0, 0, 3). All preconditions are checked. -/
theorem small_grid_traces :
    addSquaresChecked (PumpkinPatch.new 2) [(0, 0), (0, 1), (1, 0), (1, 1)] =
      some [⟨0, 0, 1⟩, ⟨0, 1, 1⟩, ⟨1, 0, 1⟩, ⟨0, 0, 2⟩] ∧
    addSquaresChecked (PumpkinPatch.new 3)
        [(2, 2), (2, 1), (1, 2), (1, 1), (1, 0), (0, 1), (0, 0), (2, 0), (0, 2)] =
      some [⟨2, 2, 1⟩, ⟨2, 1, 1⟩, ⟨1, 2, 1⟩, ⟨1, 1, 2⟩, ⟨1, 0, 1⟩,
        ⟨0, 1, 1⟩, ⟨0, 0, 1⟩, ⟨2, 0, 1⟩, ⟨0, 0, 3⟩] := by
  decide

/-- C6 counterexample: the valid square (2, 0, 2) of the 8-grid has
(0, 0, 3) among its `next_larger_squares`, yet (0, 0, 3) does not contain
the cell (3, 0) of (2, 0, 2): the result is not restricted to squares
whose cell range contains the whole square. -/
theorem next_larger_not_superset :
    (⟨2, 0, 2⟩ : Square).Valid 8 ∧
    ((⟨0, 0, 3⟩ : Square) ∈ (⟨2, 0, 2⟩ : Square).nextLargerSquares 8) ∧
    (⟨2, 0, 2⟩ : Square).contains 3 0 = true ∧
    (⟨0, 0, 3⟩ : Square).contains 3 0 = false := by
  decide

/-- C6 (amended): for a valid square, `next_larger_squares` is empty iff
`size = N`, and it contains exactly the valid squares of side `size + 1`
that contain this square's top-left cell `(x, y)` — equivalently, those
enumerated from `min_x = max(0, x−size)` to `max_x = min(x, N−size−1)`
(and symmetrically in y). -/
theorem next_larger_characterization {N : Nat} (sq T : Square)
    (hv : sq.Valid N) :
    (sq.nextLargerSquares N = [] ↔ sq.size = N) ∧
    (T ∈ sq.nextLargerSquares N ↔
      T.size = sq.size + 1 ∧ T.Valid N ∧ T.contains sq.x sq.y = true) := by
  obtain ⟨h1, h2, h3⟩ := hv
  constructor
  · constructor
    · intro hemp
      by_contra hne
      have hmem : (⟨min sq.x (N - sq.size - 1), min sq.y (N - sq.size - 1),
          sq.size + 1⟩ : Square) ∈ sq.nextLargerSquares N := by
        rw [mem_nextLarger_iff ⟨h1, h2, h3⟩]
        refine ⟨by omega, rfl, ?_, ?_, ?_, ?_, ?_, ?_⟩ <;> simp <;> omega
      rw [hemp] at hmem
      exact List.not_mem_nil _ hmem
    · intro hsz
      simp [Square.nextLargerSquares, hsz]
  · rw [mem_nextLarger_iff ⟨h1, h2, h3⟩, contains_iff]
    unfold Square.Valid
    constructor
    · rintro ⟨ha, hb, hc⟩
      exact ⟨hb, ⟨by omega, by omega, by omega⟩, by omega, by omega, by omega, by omega⟩
    · rintro ⟨ha, ⟨hb1, hb2, hb3⟩, hc⟩
      exact ⟨by omega, ha, by omega, by omega, by omega, by omega, by omega, by omega⟩

/-- C6 witness: the characterisation applied to the valid square (2, 0, 2)
of the 8-grid and the candidate (1, 0, 3). -/
theorem next_larger_characterization_witness :
    (⟨2, 0, 2⟩ : Square).Valid 8 ∧
    (((⟨2, 0, 2⟩ : Square).nextLargerSquares 8 = [] ↔ (⟨2, 0, 2⟩ : Square).size = 8) ∧
      ((⟨1, 0, 3⟩ : Square) ∈ (⟨2, 0, 2⟩ : Square).nextLargerSquares 8 ↔
        (⟨1, 0, 3⟩ : Square).size = (⟨2, 0, 2⟩ : Square).size + 1 ∧
          (⟨1, 0, 3⟩ : Square).Valid 8 ∧
          (⟨1, 0, 3⟩ : Square).contains (⟨2, 0, 2⟩ : Square).x
            (⟨2, 0, 2⟩ : Square).y = true)) :=
  ⟨by decide, next_larger_characterization ⟨2, 0, 2⟩ ⟨1, 0, 3⟩ (by decide)⟩

/-- C7: for every valid square of the N-grid the perfect-hash index
`x + y·N + (size−1)·N²` lies in `[0, N³)`, round-trips through
`from_index`, and is collision-free on valid squares. -/
theorem perfect_hash_bijection {N : Nat} (sq sq' : Square)
    (h : sq.Valid N) (h' : sq'.Valid N) :
    sq.idx N < N * N * N ∧ Square.fromIndex (sq.idx N) N = sq ∧
      (sq.idx N = sq'.idx N → sq = sq') := by
  refine ⟨idx_lt h, ?_, fun heq => idx_inj h h' heq⟩
  exact fromIndex_idx (by obtain ⟨a, b, c⟩ := h; omega)
    (by obtain ⟨a, b, c⟩ := h; omega) h.1

/-- C7 witness: the bijection applied to the valid squares (1, 2, 1) and
(0, 1, 2) of the 3-grid. -/
theorem perfect_hash_bijection_witness :
    (⟨1, 2, 1⟩ : Square).Valid 3 ∧ (⟨0, 1, 2⟩ : Square).Valid 3 ∧
      (Square.idx ⟨1, 2, 1⟩ 3 < 3 * 3 * 3 ∧
        Square.fromIndex (Square.idx ⟨1, 2, 1⟩ 3) 3 = ⟨1, 2, 1⟩ ∧
        (Square.idx ⟨1, 2, 1⟩ 3 = Square.idx ⟨0, 1, 2⟩ 3 →
          (⟨1, 2, 1⟩ : Square) = ⟨0, 1, 2⟩)) :=
  ⟨by decide, by decide,
    perfect_hash_bijection ⟨1, 2, 1⟩ ⟨0, 1, 2⟩ (by decide) (by decide)⟩

/-- C8: inserting on an already-planted cell trips the entry assertion
`debug_assert!(!self.contains(x, y))` of `add` (modelled by `addChecked`):
the call is flagged as a precondition violation instead of running as a
normal insertion. -/
theorem double_plant_rejected (p : PumpkinPatch) (x y : Nat)
    (h : p.containsCell x y = true) : addChecked p x y = none := by
  simp [addChecked, h]

/-- C8 witness: replanting (0, 0) on a 2×2 patch that already holds it. -/
theorem double_plant_rejected_witness :
    (add (PumpkinPatch.new 2) 0 0).2.containsCell 0 0 = true ∧
      addChecked (add (PumpkinPatch.new 2) 0 0).2 0 0 = none :=
  ⟨by decide, double_plant_rejected _ 0 0 (by decide)⟩

/-- C9: the identity is computed and stored in u16
(`NonZeroU16::new(y * size + x + 1)`): at grid size 1024 the identity of
the anchor (1023, 1023) wraps to 0 and is stored as `None` rather than the
exact value 1023·1024 + 1023 + 1 = 1048576 — the claimed sizes up to 1024
are not supported without overflow. -/
theorem identity_overflow_at_1024 :
    mkId 1024 1023 1023 = none ∧
      mkId 1024 1023 1023 ≠ some (1023 * 1024 + 1023 + 1) := by
  decide

/-! ## Structural lemmas for the search loop and the fill loop -/

theorem searchLoop_nil (p : PumpkinPatch) (fuel : Nat) (v : List Bool)
    (L : Square) : searchLoop p fuel ⟨[], v, L⟩ = L := by
  cases fuel <;> rfl

theorem searchLoop_zero (p : PumpkinPatch) (st : SearchState) :
    searchLoop p 0 st = st.largest := by
  obtain ⟨stack, v, L⟩ := st
  cases stack <;> rfl

theorem searchLoop_succ (p : PumpkinPatch) (fuel : Nat) (S : Square)
    (rest : List Square) (v : List Bool) (L : Square) :
    searchLoop p (fuel + 1) ⟨S :: rest, v, L⟩ =
      searchLoop p fuel (searchStep p S ⟨rest, v, L⟩) := rfl

theorem searchStep_skip {p : PumpkinPatch} {S : Square} (st : SearchState)
    (hb : andChanged (LookupTable.getBitmap p.size S) p.bitmap = true) :
    searchStep p S st = st := by
  simp [searchStep, hb]

theorem searchStep_run {p : PumpkinPatch} {S : Square} {rest : List Square}
    {v : List Bool} {L : Square}
    (hb : andChanged (LookupTable.getBitmap p.size S) p.bitmap = false) :
    searchStep p S ⟨rest, v, L⟩ =
      ⟨((LookupTable.getLarger p.size S).filter fun sq =>
          !(v.getD (sq.idx p.size) false)).reverse ++ rest,
        ((LookupTable.getLarger p.size S).filter fun sq =>
          !(v.getD (sq.idx p.size) false)).foldl
          (fun w sq => w.set (sq.idx p.size) true) v,
        if S.size > L.size && checkBoundary p S then S else L⟩ := by
  simp [searchStep, hb]

theorem searchStep_valid {p : PumpkinPatch} {S : Square} {rest : List Square}
    {v : List Bool} {L : Square}
    (hS : S.Valid p.size) (hrest : ∀ T ∈ rest, T.Valid p.size)
    (hl : L.Valid p.size) :
    (∀ T ∈ (searchStep p S ⟨rest, v, L⟩).stack, T.Valid p.size) ∧
      (searchStep p S ⟨rest, v, L⟩).largest.Valid p.size := by
  rcases hb : andChanged (LookupTable.getBitmap p.size S) p.bitmap
  · rw [searchStep_run hb]
    constructor
    · intro T hT
      rcases List.mem_append.mp hT with hT | hT
      · exact nextLarger_valid hS (List.mem_filter.mp (List.mem_reverse.mp hT)).1
      · exact hrest T hT
    · dsimp only
      rcases hc : (S.size > L.size && checkBoundary p S)
      · simpa using hl
      · simpa using hS
  · rw [searchStep_skip _ hb]
    exact ⟨hrest, hl⟩

theorem searchLoop_valid {p : PumpkinPatch} :
    ∀ (fuel : Nat) (st : SearchState),
      (∀ T ∈ st.stack, T.Valid p.size) → st.largest.Valid p.size →
      (searchLoop p fuel st).Valid p.size
  | fuel, ⟨[], v, L⟩, _, hl => by
    rw [searchLoop_nil]
    exact hl
  | 0, ⟨S :: rest, v, L⟩, _, hl => by
    rw [searchLoop_zero]
    exact hl
  | fuel + 1, ⟨S :: rest, v, L⟩, hstack, hl => by
    rw [searchLoop_succ]
    have hS : S.Valid p.size := hstack S (List.mem_cons_self _ _)
    have hrest : ∀ T ∈ rest, T.Valid p.size := fun T hT =>
      hstack T (List.mem_cons_of_mem _ hT)
    obtain ⟨h1, h2⟩ := searchStep_valid hS hrest hl
    exact searchLoop_valid fuel _ h1 h2

theorem cell_index_lt {N x y : Nat} (hx : x < N) (hy : y < N) :
    y * N + x < N * N := by
  calc y * N + x < y * N + N := by omega
    _ = (y + 1) * N := by ring
    _ ≤ N * N := Nat.mul_le_mul (by omega) (Nat.le_refl N)

theorem rowIndex_inj {N a b a' b' : Nat} (hb : b < N) (hb' : b' < N)
    (h : a * N + b = a' * N + b') : a = a' ∧ b = b' := by
  have hN : 0 < N := by omega
  have e1 : (b + a * N) % N = b := by
    rw [Nat.add_mul_mod_self_right, Nat.mod_eq_of_lt hb]
  have e1' : (b' + a' * N) % N = b' := by
    rw [Nat.add_mul_mod_self_right, Nat.mod_eq_of_lt hb']
  have e2 : (b + a * N) / N = a := by
    rw [Nat.add_mul_div_right _ _ hN, Nat.div_eq_of_lt hb, Nat.zero_add]
  have e2' : (b' + a' * N) / N = a' := by
    rw [Nat.add_mul_div_right _ _ hN, Nat.div_eq_of_lt hb', Nat.zero_add]
  have heq : b + a * N = b' + a' * N := by omega
  constructor
  · rw [← e2, ← e2', heq]
  · rw [← e1, ← e1', heq]

theorem mem_sqCells {sq : Square} {c : Nat × Nat} :
    c ∈ sqCells sq ↔ sq.contains c.1 c.2 = true := by
  obtain ⟨cx, cy⟩ := c
  rw [contains_iff]
  simp only [sqCells, List.mem_flatMap, List.mem_map, List.mem_range'_1]
  constructor
  · rintro ⟨b, hb, a, ha, heq⟩
    cases heq
    exact ⟨by omega, by omega, by omega, by omega⟩
  · rintro ⟨ha, hb, hc, hd⟩
    exact ⟨cy, by omega, cx, by omega, rfl⟩

theorem fillIds_ids_getD (p : PumpkinPatch) (sq : Square) (id : Option Nat)
    (i : Nat) :
    (fillIds p sq id).ids.getD i none =
      if (∃ c ∈ sqCells sq, c.2 * p.size + c.1 = i) ∧ i < p.ids.length then id
      else p.ids.getD i none :=
  getD_foldl_set (fun c : Nat × Nat => c.2 * p.size + c.1) id none (sqCells sq) p.ids i

theorem fillIds_idsT_getD (p : PumpkinPatch) (sq : Square) (id : Option Nat)
    (i : Nat) :
    (fillIds p sq id).ids_transposed.getD i none =
      if (∃ c ∈ sqCells sq, c.1 * p.size + c.2 = i) ∧
          i < p.ids_transposed.length then id
      else p.ids_transposed.getD i none :=
  getD_foldl_set (fun c : Nat × Nat => c.1 * p.size + c.2) id none (sqCells sq)
    p.ids_transposed i

theorem add_def (p : PumpkinPatch) (x y : Nat) :
    add p x y =
      ((searchLoop { p with bitmap := p.bitmap.set (p.index x y) true }
          (p.size * p.size * p.size)
          ⟨[⟨x, y, 1⟩],
            (List.replicate (p.size * p.size * p.size) false).set
              (Square.idx ⟨x, y, 1⟩ p.size) true, ⟨x, y, 1⟩⟩),
        fillIds { p with bitmap := p.bitmap.set (p.index x y) true }
          (searchLoop { p with bitmap := p.bitmap.set (p.index x y) true }
            (p.size * p.size * p.size)
            ⟨[⟨x, y, 1⟩],
              (List.replicate (p.size * p.size * p.size) false).set
                (Square.idx ⟨x, y, 1⟩ p.size) true, ⟨x, y, 1⟩⟩)
          (mkId p.size
            (searchLoop { p with bitmap := p.bitmap.set (p.index x y) true }
              (p.size * p.size * p.size)
              ⟨[⟨x, y, 1⟩],
                (List.replicate (p.size * p.size * p.size) false).set
                  (Square.idx ⟨x, y, 1⟩ p.size) true, ⟨x, y, 1⟩⟩).x
            (searchLoop { p with bitmap := p.bitmap.set (p.index x y) true }
              (p.size * p.size * p.size)
              ⟨[⟨x, y, 1⟩],
                (List.replicate (p.size * p.size * p.size) false).set
                  (Square.idx ⟨x, y, 1⟩ p.size) true, ⟨x, y, 1⟩⟩).y)) := rfl

theorem add_largest_valid (p : PumpkinPatch) (x y : Nat)
    (hx : x < p.size) (hy : y < p.size) :
    (add p x y).1.Valid p.size := by
  rw [add_def]
  exact searchLoop_valid _ _
    (by
      intro T hT
      rcases List.mem_cons.mp hT with rfl | hT
      · exact ⟨Nat.le_refl 1, by show x + 1 ≤ p.size; omega,
          by show y + 1 ≤ p.size; omega⟩
      · exact absurd hT (List.not_mem_nil T))
    ⟨Nat.le_refl 1, by show x + 1 ≤ p.size; omega,
      by show y + 1 ≤ p.size; omega⟩

theorem fillIds_cells (q : PumpkinPatch) (L : Square) (idv : Option Nat)
    (cx cy : Nat) (hLv : L.Valid q.size)
    (hil : q.ids.length = q.size * q.size)
    (htl : q.ids_transposed.length = q.size * q.size)
    (hcx : cx < q.size) (hcy : cy < q.size) :
    (L.contains cx cy = true →
      (fillIds q L idv).ids.getD (cy * q.size + cx) none = idv ∧
        (fillIds q L idv).ids_transposed.getD (cx * q.size + cy) none = idv) ∧
    (L.contains cx cy = false →
      (fillIds q L idv).ids.getD (cy * q.size + cx) none =
          q.ids.getD (cy * q.size + cx) none ∧
        (fillIds q L idv).ids_transposed.getD (cx * q.size + cy) none =
          q.ids_transposed.getD (cx * q.size + cy) none) := by
  constructor
  · intro hin
    constructor
    · rw [fillIds_ids_getD, if_pos ⟨⟨(cx, cy), mem_sqCells.mpr hin, rfl⟩,
        by rw [hil]; exact cell_index_lt hcx hcy⟩]
    · rw [fillIds_idsT_getD, if_pos ⟨⟨(cx, cy), mem_sqCells.mpr hin, rfl⟩,
        by rw [htl]; exact cell_index_lt hcy hcx⟩]
  · intro hout
    constructor
    · have hno : ¬((∃ c ∈ sqCells L, c.2 * q.size + c.1 = cy * q.size + cx) ∧
          cy * q.size + cx < q.ids.length) := by
        rintro ⟨⟨c, hc, hidx⟩, -⟩
        have hcc := mem_sqCells.mp hc
        have hb1 : c.1 < q.size := by
          have := contains_iff.mp hcc
          obtain ⟨a1, a2, a3⟩ := hLv
          omega
        obtain ⟨e1, e2⟩ := rowIndex_inj hb1 hcx hidx
        rw [e2, e1] at hcc
        rw [hout] at hcc
        cases hcc
      rw [fillIds_ids_getD, if_neg hno]
    · have hno : ¬((∃ c ∈ sqCells L, c.1 * q.size + c.2 = cx * q.size + cy) ∧
          cx * q.size + cy < q.ids_transposed.length) := by
        rintro ⟨⟨c, hc, hidx⟩, -⟩
        have hcc := mem_sqCells.mp hc
        have hb2 : c.2 < q.size := by
          have := contains_iff.mp hcc
          obtain ⟨a1, a2, a3⟩ := hLv
          omega
        obtain ⟨e1, e2⟩ := rowIndex_inj hb2 hcy hidx
        rw [e1, e2] at hcc
        rw [hout] at hcc
        cases hcc
      rw [fillIds_idsT_getD, if_neg hno]

/-! ## Full occupancy, the full square, and nodup facts -/

theorem bitmap_getD {S : Square} {N i : Nat} (hi : i < N * N) :
    (S.bitmap N).getD i false = S.contains (i % N) (i / N) := by
  unfold Square.bitmap
  have hlen : i < ((List.range (N * N)).map fun j =>
      S.contains (j % N) (j / N)).length := by
    simpa using hi
  rw [List.getD_eq_getElem _ _ hlen, List.getElem_map, List.getElem_range]

theorem andChanged_eq_false {p : PumpkinPatch} {S : Square} (hwf : p.WF)
    (hv : S.Valid p.size)
    (hall : ∀ cx cy, cx < p.size → cy < p.size →
      p.containsCell cx cy = true) :
    andChanged (LookupTable.getBitmap p.size S) p.bitmap = false := by
  obtain ⟨hbl, hil, htl⟩ := hwf
  have hN : 0 < p.size := by
    obtain ⟨a, b, c⟩ := hv
    omega
  rw [Bool.eq_false_iff]
  intro hany
  obtain ⟨i, h1, h2, h3⟩ :=
    (zip_any_iff false false).mp hany
  have hilt : i < p.size * p.size := by
    have : (LookupTable.getBitmap p.size S).length = p.size * p.size := by
      simp [LookupTable.getBitmap, Square.bitmap]
    omega
  rw [Bool.and_eq_true] at h3
  obtain ⟨h4, h5⟩ := h3
  dsimp only at h4 h5
  simp only [LookupTable.getBitmap] at h4
  rw [bitmap_getD hilt] at h4
  have hx : i % p.size < p.size := Nat.mod_lt i hN
  have hy : i / p.size < p.size := (Nat.div_lt_iff_lt_mul hN).mpr hilt
  have hcell := hall (i % p.size) (i / p.size) hx hy
  have hidx : (i / p.size) * p.size + i % p.size = i := by
    rw [Nat.mul_comm]
    exact Nat.div_add_mod i p.size
  rw [PumpkinPatch.containsCell, PumpkinPatch.index, hidx] at hcell
  rw [hcell] at h5
  simp at h5

theorem checkBoundary_fullSq (p : PumpkinPatch) :
    checkBoundary p (fullSq p.size) = true := by
  simp [checkBoundary, northHit, southHit, eastHit, westHit, fullSq,
    Nat.sub_self]

theorem valid_size_eq_full {N : Nat} {S : Square} (hv : S.Valid N)
    (hs : S.size = N) : S = fullSq N := by
  obtain ⟨X, Y, Z⟩ := S
  obtain ⟨a1, a2, a3⟩ := hv
  replace hs : Z = N := hs
  replace a2 : X + Z ≤ N := a2
  replace a3 : Y + Z ≤ N := a3
  unfold fullSq
  simp only [Square.mk.injEq]
  omega

theorem nodup_grid_product (s : Nat) (xs ys : List Nat)
    (hxs : xs.Nodup) (hys : ys.Nodup) :
    (xs.flatMap fun a => ys.map fun b => Square.mk a b s).Nodup := by
  rw [List.nodup_flatMap]
  constructor
  · intro a ha
    exact List.Nodup.map_on
      (fun b1 h1 b2 h2 he => by
        have hb := congrArg Square.y he
        simpa using hb) hys
  · refine hxs.imp ?_
    intro a b hab T hT1 hT2
    obtain ⟨b1, -, he1⟩ := List.mem_map.mp hT1
    obtain ⟨b2, -, he2⟩ := List.mem_map.mp hT2
    rw [← he2] at he1
    have : a = b := by
      have := congrArg Square.x he1
      simpa using this
    exact hab this

theorem nextLarger_nodup (sq : Square) (N : Nat) :
    (sq.nextLargerSquares N).Nodup := by
  unfold Square.nextLargerSquares
  by_cases hsz : sq.size = N
  · rw [if_pos hsz]
    exact List.nodup_nil
  · rw [if_neg hsz]
    exact nodup_grid_product _ _ _ (List.nodup_range' _ _)
      (List.nodup_range' _ _)

theorem map_idx_nodup {N : Nat} {P : List Square} (hn : P.Nodup)
    (hv : ∀ T ∈ P, T.Valid N) :
    (P.map fun T => T.idx N).Nodup :=
  List.Nodup.map_on (fun a ha b hb he => idx_inj (hv a ha) (hv b hb) he) hn

theorem count_foldl_set_true {N : Nat} :
    ∀ (P : List Square) (v : List Bool),
      (∀ T ∈ P, T.idx N < v.length) →
      (∀ T ∈ P, v.getD (T.idx N) false = false) →
      (P.map fun T => T.idx N).Nodup →
      (P.foldl (fun w sq => w.set (sq.idx N) true) v).count false +
        P.length = v.count false
  | [], v, _, _, _ => by simp
  | c :: P, v, hlt, hun, hnd => by
    rw [List.foldl_cons]
    have hc1 : c.idx N < v.length := hlt c (List.mem_cons_self _ _)
    have hc2 : v.getD (c.idx N) false = false := hun c (List.mem_cons_self _ _)
    have hcount := count_false_set hc1 hc2
    have hnd' : (∀ x ∈ P, ¬x.idx N = c.idx N) ∧
        (List.map (fun T => T.idx N) P).Nodup := by
      simpa using hnd
    have ih := count_foldl_set_true P (v.set (c.idx N) true)
      (fun T hT => by rw [List.length_set]; exact hlt T (List.mem_cons_of_mem _ hT))
      (fun T hT => by
        have hne : c.idx N ≠ T.idx N := fun he => hnd'.1 T hT he.symm
        rw [getD_set_ne hne]
        exact hun T (List.mem_cons_of_mem _ hT))
      hnd'.2
    rw [List.length_cons]
    omega

/-! ## The growth chain from a unit square to the full square -/

theorem growChain_succ (N x y i : Nat) :
    growChain N x y (i + 1) =
      ⟨min (growChain N x y i).x (N - ((growChain N x y i).size + 1)),
        min (growChain N x y i).y (N - ((growChain N x y i).size + 1)),
        (growChain N x y i).size + 1⟩ := rfl

theorem growChain_size (N x y : Nat) : ∀ i, (growChain N x y i).size = i + 1
  | 0 => rfl
  | i + 1 => by
    rw [growChain_succ, growChain_size N x y i]

theorem growChain_valid (N x y : Nat) (hx : x < N) (hy : y < N) :
    ∀ i, i + 1 ≤ N → (growChain N x y i).Valid N
  | 0, h => ⟨Nat.le_refl 1, by show x + 1 ≤ N; omega, by show y + 1 ≤ N; omega⟩
  | i + 1, h => by
    obtain ⟨a1, a2, a3⟩ := growChain_valid N x y hx hy i (by omega)
    have hs := growChain_size N x y i
    rw [growChain_succ]
    refine ⟨by show 1 ≤ (growChain N x y i).size + 1; omega, ?_, ?_⟩
    · show min (growChain N x y i).x (N - ((growChain N x y i).size + 1)) +
        ((growChain N x y i).size + 1) ≤ N
      have hm := Nat.min_le_right (growChain N x y i).x
        (N - ((growChain N x y i).size + 1))
      omega
    · show min (growChain N x y i).y (N - ((growChain N x y i).size + 1)) +
        ((growChain N x y i).size + 1) ≤ N
      have hm := Nat.min_le_right (growChain N x y i).y
        (N - ((growChain N x y i).size + 1))
      omega

theorem growChain_mem (N x y : Nat) (hx : x < N) (hy : y < N)
    (i : Nat) (h : i + 2 ≤ N) :
    growChain N x y (i + 1) ∈
      LookupTable.getLarger N (growChain N x y i) := by
  have hv := growChain_valid N x y hx hy i (by omega)
  obtain ⟨a1, a2, a3⟩ := hv
  have hs := growChain_size N x y i
  refine (mem_nextLarger_iff ⟨a1, a2, a3⟩).mpr ⟨by omega, ?_, ?_, ?_, ?_, ?_, ?_, ?_⟩
  · rw [growChain_succ]
  · rw [growChain_succ]
    show (growChain N x y i).x - (growChain N x y i).size ≤
      min (growChain N x y i).x (N - ((growChain N x y i).size + 1))
    exact Nat.le_min.mpr ⟨by omega, by omega⟩
  · rw [growChain_succ]
    show min (growChain N x y i).x (N - ((growChain N x y i).size + 1)) ≤
      (growChain N x y i).x
    exact Nat.min_le_left _ _
  · rw [growChain_succ]
    show min (growChain N x y i).x (N - ((growChain N x y i).size + 1)) +
      ((growChain N x y i).size + 1) ≤ N
    have hm := Nat.min_le_right (growChain N x y i).x
      (N - ((growChain N x y i).size + 1))
    omega
  · rw [growChain_succ]
    show (growChain N x y i).y - (growChain N x y i).size ≤
      min (growChain N x y i).y (N - ((growChain N x y i).size + 1))
    exact Nat.le_min.mpr ⟨by omega, by omega⟩
  · rw [growChain_succ]
    show min (growChain N x y i).y (N - ((growChain N x y i).size + 1)) ≤
      (growChain N x y i).y
    exact Nat.min_le_left _ _
  · rw [growChain_succ]
    show min (growChain N x y i).y (N - ((growChain N x y i).size + 1)) +
      ((growChain N x y i).size + 1) ≤ N
    have hm := Nat.min_le_right (growChain N x y i).y
      (N - ((growChain N x y i).size + 1))
    omega

theorem growChain_full (N x y : Nat) (hx : x < N) (hy : y < N)
    (hN : 1 ≤ N) : growChain N x y (N - 1) = fullSq N := by
  obtain ⟨a1, a2, a3⟩ := growChain_valid N x y hx hy (N - 1) (by omega)
  have hs := growChain_size N x y (N - 1)
  rcases hEq : growChain N x y (N - 1) with ⟨gx, gy, gs⟩
  rw [hEq] at a1 a2 a3 hs
  replace a2 : gx + gs ≤ N := a2
  replace a3 : gy + gs ≤ N := a3
  replace hs : gs = N - 1 + 1 := hs
  unfold fullSq
  simp only [Square.mk.injEq]
  omega

/-! ## Advancing a chain witness across one marking step -/

theorem chain_advance {N : Nat} {P : List Square} {v v' : List Bool}
    {S : Square}
    (hvlen : v.length = N * N * N)
    (hv' : ∀ j, v'.getD j false =
      if (∃ c ∈ P, c.idx N = j) ∧ j < v.length then true else v.getD j false)
    (hPvalid : ∀ T ∈ P, T.Valid N)
    (hPin : ∀ T, T ∈ LookupTable.getLarger N S →
      v.getD (T.idx N) false = false → T ∈ P)
    {S₀ : Square} (hch : ChainTo N v S₀) :
    (∃ W ∈ P, ChainTo N v' W) ∨
      (ChainTo N v' S₀ ∧ (S₀ = S → S₀ = fullSq N)) := by
  obtain ⟨k, f, hf0, hfk, hfe, hfu, hfv⟩ := hch
  by_cases hj0 : Nat.findGreatest
      (fun i => 0 < i ∧ v'.getD ((f i).idx N) false = true) k = 0
  · right
    have hun' : ∀ i, 0 < i → i ≤ k → Unvisited N v' (f i) := by
      intro i hi hik
      have hnot := Nat.findGreatest_eq_zero_iff.mp hj0 hi hik
      have hne : ¬(v'.getD ((f i).idx N) false = true) := fun ht => hnot ⟨hi, ht⟩
      exact Bool.eq_false_iff.mpr hne
    refine ⟨⟨k, f, hf0, hfk, hfe, hun', hfv⟩, ?_⟩
    intro hSS
    rcases Nat.eq_zero_or_pos k with rfl | hk
    · rw [← hf0, hfk]
    · exfalso
      have h1g : f 1 ∈ LookupTable.getLarger N S := by
        have h := hfe 0 hk
        rw [hf0, hSS] at h
        exact h
      have h1un : v.getD ((f 1).idx N) false = false := hfu 1 Nat.one_pos hk
      have h1P : f 1 ∈ P := hPin _ h1g h1un
      have h1lt : (f 1).idx N < v.length := by
        rw [hvlen]
        exact idx_lt (hfv 1 hk)
      have h1mark : v'.getD ((f 1).idx N) false = true := by
        rw [hv', if_pos ⟨⟨f 1, h1P, rfl⟩, h1lt⟩]
      have hge : 1 ≤ Nat.findGreatest
          (fun i => 0 < i ∧ v'.getD ((f i).idx N) false = true) k :=
        @Nat.le_findGreatest 1
          (fun i => 0 < i ∧ v'.getD ((f i).idx N) false = true) _ k hk
          ⟨Nat.one_pos, h1mark⟩
      omega
  · left
    have hex : ¬∀ ⦃n : Nat⦄, 0 < n → n ≤ k →
        ¬(0 < n ∧ v'.getD ((f n).idx N) false = true) :=
      fun hall => hj0 (Nat.findGreatest_eq_zero_iff.mpr hall)
    have hex2 : ∃ n, 0 < n ∧ n ≤ k ∧
        v'.getD ((f n).idx N) false = true := by
      by_contra hno
      exact hex fun n hn hnk hP => hno ⟨n, hn, hnk, hP.2⟩
    obtain ⟨m, hm0, hmk, hPm2⟩ := hex2
    obtain ⟨j, hjdef⟩ : ∃ j, Nat.findGreatest
        (fun i => 0 < i ∧ v'.getD ((f i).idx N) false = true) k = j := ⟨_, rfl⟩
    have hPmj : 0 < j ∧ v'.getD ((f j).idx N) false = true := by
      rw [← hjdef]
      exact @Nat.findGreatest_spec m
        (fun i => 0 < i ∧ v'.getD ((f i).idx N) false = true) _ k hmk
        ⟨hm0, hPm2⟩
    obtain ⟨hjpos, hjmark⟩ := hPmj
    have hjk : j ≤ k := by
      rw [← hjdef]
      exact Nat.findGreatest_le k
    have hjun : v.getD ((f j).idx N) false = false := hfu j hjpos hjk
    have hjP : f j ∈ P := by
      rw [hv'] at hjmark
      by_cases hcnd : (∃ c ∈ P, c.idx N = (f j).idx N) ∧ (f j).idx N < v.length
      · obtain ⟨⟨T, hTP, hTidx⟩, -⟩ := hcnd
        have hTeq : T = f j := idx_inj (hPvalid T hTP) (hfv j hjk) hTidx
        rw [← hTeq]
        exact hTP
      · rw [if_neg hcnd, hjun] at hjmark
        exact absurd hjmark Bool.false_ne_true
    refine ⟨f j, hjP, k - j, fun i => f (j + i), rfl, ?_, ?_, ?_, ?_⟩
    · show f (j + (k - j)) = fullSq N
      rw [show j + (k - j) = k from by omega, hfk]
    · intro i hi
      show f (j + (i + 1)) ∈ LookupTable.getLarger N (f (j + i))
      have h := hfe (j + i) (by omega)
      rw [show j + (i + 1) = j + i + 1 from by omega]
      exact h
    · intro i hi hik
      show Unvisited N v' (f (j + i))
      have hnp : ¬(0 < j + i ∧ v'.getD ((f (j + i)).idx N) false = true) :=
        @Nat.findGreatest_is_greatest (j + i)
          (fun i => 0 < i ∧ v'.getD ((f i).idx N) false = true) _ k
          (by rw [hjdef]; omega) (by omega)
      have hne : ¬(v'.getD ((f (j + i)).idx N) false = true) :=
        fun ht => hnp ⟨by omega, ht⟩
      exact Bool.eq_false_iff.mpr hne
    · intro i hik
      show Square.Valid N (f (j + i))
      exact hfv (j + i) (by omega)

/-! ## The search loop on a fully planted grid finds the full square -/

theorem searchStep_preserves {p : PumpkinPatch} (hwf : p.WF)
    (hall : ∀ cx cy, cx < p.size → cy < p.size → p.containsCell cx cy = true)
    {S : Square} {rest : List Square} {v : List Bool} {L : Square}
    (hinv : SearchInv p.size ⟨S :: rest, v, L⟩) :
    SearchInv p.size (searchStep p S ⟨rest, v, L⟩) ∧
      (searchStep p S ⟨rest, v, L⟩).stack.length +
          unvisitedCount (searchStep p S ⟨rest, v, L⟩).visited + 1 =
        (S :: rest).length + unvisitedCount v := by
  obtain ⟨hstack, hLv, hvlen, hdisj⟩ := hinv
  replace hstack : ∀ T ∈ S :: rest, T.Valid p.size := hstack
  replace hLv : L.Valid p.size := hLv
  replace hvlen : v.length = p.size * p.size * p.size := hvlen
  have hS : S.Valid p.size := hstack S (List.mem_cons_self _ _)
  have hrest : ∀ T ∈ rest, T.Valid p.size := fun T hT =>
    hstack T (List.mem_cons_of_mem _ hT)
  have hb : andChanged (LookupTable.getBitmap p.size S) p.bitmap = false :=
    andChanged_eq_false hwf hS hall
  rw [searchStep_run hb]
  generalize hP : ((LookupTable.getLarger p.size S).filter fun sq =>
      !(v.getD (sq.idx p.size) false)) = P
  have hPmem : ∀ T ∈ P, T ∈ LookupTable.getLarger p.size S ∧
      v.getD (T.idx p.size) false = false := by
    intro T hT
    rw [← hP] at hT
    obtain ⟨h1, h2⟩ := List.mem_filter.mp hT
    refine ⟨h1, ?_⟩
    rcases hgd : v.getD (T.idx p.size) false
    · rfl
    · rw [hgd] at h2
      simp at h2
  have hPvalid : ∀ T ∈ P, T.Valid p.size := fun T hT =>
    nextLarger_valid hS (hPmem T hT).1
  have hPlt : ∀ T ∈ P, T.idx p.size < v.length := fun T hT => by
    rw [hvlen]
    exact idx_lt (hPvalid T hT)
  have hPnodup : P.Nodup := by
    rw [← hP]
    exact List.Nodup.filter _ (nextLarger_nodup S p.size)
  have hPidx : (P.map fun T => T.idx p.size).Nodup :=
    map_idx_nodup hPnodup hPvalid
  have hv'getD : ∀ j,
      (P.foldl (fun w sq => w.set (sq.idx p.size) true) v).getD j false =
        if (∃ c ∈ P, c.idx p.size = j) ∧ j < v.length then true
        else v.getD j false :=
    fun j => getD_foldl_set (fun sq : Square => sq.idx p.size) true false P v j
  have hv'len :
      (P.foldl (fun w sq => w.set (sq.idx p.size) true) v).length = v.length :=
    length_foldl_set (fun sq : Square => sq.idx p.size) true P v
  have hcnt :
      (P.foldl (fun w sq => w.set (sq.idx p.size) true) v).count false +
        P.length = v.count false :=
    count_foldl_set_true P v hPlt (fun T hT => (hPmem T hT).2) hPidx
  have hPin : ∀ T, T ∈ LookupTable.getLarger p.size S →
      v.getD (T.idx p.size) false = false → T ∈ P := by
    intro T h1 h2
    rw [← hP]
    exact List.mem_filter.mpr ⟨h1, by rw [h2]; rfl⟩
  refine ⟨⟨?_, ?_, ?_, ?_⟩, ?_⟩
  · intro T hT
    rcases List.mem_append.mp hT with hT | hT
    · exact hPvalid T (List.mem_reverse.mp hT)
    · exact hrest T hT
  · dsimp only
    rcases hc : (S.size > L.size && checkBoundary p S)
    · simpa using hLv
    · simpa using hS
  · dsimp only
    rw [hv'len, hvlen]
  · dsimp only
    rcases hdisj with hfull | ⟨S₀, hS₀mem, hchain⟩
    · left
      replace hfull : L = fullSq p.size := hfull
      subst hfull
      have hc : (S.size > (fullSq p.size).size && checkBoundary p S) = false := by
        have h1 : decide (S.size > (fullSq p.size).size) = false := by
          apply decide_eq_false
          show ¬(p.size < S.size)
          obtain ⟨b1, b2, b3⟩ := hS
          omega
        rw [h1, Bool.false_and]
      rw [if_neg (by rw [hc]; exact Bool.false_ne_true)]
    · replace hS₀mem : S₀ ∈ S :: rest := hS₀mem
      replace hchain : ChainTo p.size v S₀ := hchain
      rcases chain_advance hvlen hv'getD hPvalid hPin hchain with
        ⟨W, hWP, hWch⟩ | ⟨hchain2, himp⟩
      · right
        exact ⟨W, List.mem_append.mpr (Or.inl (List.mem_reverse.mpr hWP)), hWch⟩
      · rcases List.mem_cons.mp hS₀mem with rfl | hS₀rest
        · by_cases hLsz : L.size = p.size
          · left
            have hLfull : L = fullSq p.size := valid_size_eq_full hLv hLsz
            subst hLfull
            have hc : (S₀.size > (fullSq p.size).size && checkBoundary p S₀) = false := by
              have h1 : decide (S₀.size > (fullSq p.size).size) = false := by
                apply decide_eq_false
                show ¬(p.size < S₀.size)
                obtain ⟨b1, b2, b3⟩ := hS
                omega
              rw [h1, Bool.false_and]
            rw [if_neg (by rw [hc]; exact Bool.false_ne_true)]
          · left
            have hSfull : S₀ = fullSq p.size := himp rfl
            have hc : (S₀.size > L.size && checkBoundary p S₀) = true := by
              rw [hSfull, checkBoundary_fullSq, Bool.and_true]
              apply decide_eq_true
              show L.size < p.size
              obtain ⟨b1, b2, b3⟩ := hLv
              omega
            rw [if_pos hc]
            exact hSfull
        · right
          exact ⟨S₀, List.mem_append.mpr (Or.inr hS₀rest), hchain2⟩
  · dsimp only
    rw [List.length_append, List.length_reverse, List.length_cons]
    unfold unvisitedCount
    omega

theorem searchLoop_full {p : PumpkinPatch} (hwf : p.WF)
    (hall : ∀ cx cy, cx < p.size → cy < p.size → p.containsCell cx cy = true) :
    ∀ (fuel : Nat) (st : SearchState), SearchInv p.size st →
      st.stack.length + unvisitedCount st.visited ≤ fuel →
      searchLoop p fuel st = fullSq p.size
  | fuel, ⟨[], v, L⟩, hinv, _ => by
    rw [searchLoop_nil]
    rcases hinv.2.2.2 with h | ⟨S, hS, -⟩
    · exact h
    · exact absurd hS (List.not_mem_nil S)
  | 0, ⟨S :: rest, v, L⟩, _, hfuel => by
    exact absurd hfuel (by
      show ¬((S :: rest).length + unvisitedCount v ≤ 0)
      rw [List.length_cons]
      omega)
  | fuel + 1, ⟨S :: rest, v, L⟩, hinv, hfuel => by
    rw [searchLoop_succ]
    obtain ⟨hinv2, hmeas⟩ := searchStep_preserves hwf hall hinv
    refine searchLoop_full hwf hall fuel _ hinv2 ?_
    replace hfuel : (S :: rest).length + unvisitedCount v ≤ fuel + 1 := hfuel
    omega

/-! ## Folding insertions over a whole grid -/

theorem new_WF (N : Nat) : (PumpkinPatch.new N).WF :=
  ⟨by simp [PumpkinPatch.new], by simp [PumpkinPatch.new],
    by simp [PumpkinPatch.new]⟩

theorem add_WF {p : PumpkinPatch} (hwf : p.WF) (x y : Nat) :
    (add p x y).2.WF := by
  obtain ⟨h1, h2, h3⟩ := hwf
  refine ⟨?_, ?_, ?_⟩
  · show (p.bitmap.set (p.index x y) true).length = p.size * p.size
    rw [List.length_set]
    exact h1
  · have hl : (add p x y).2.ids.length = p.ids.length :=
      length_foldl_set (fun c : Nat × Nat => c.2 * p.size + c.1)
        (mkId p.size (add p x y).1.x (add p x y).1.y)
        (sqCells (add p x y).1) p.ids
    show (add p x y).2.ids.length = p.size * p.size
    rw [hl]
    exact h2
  · have hl : (add p x y).2.ids_transposed.length = p.ids_transposed.length :=
      length_foldl_set (fun c : Nat × Nat => c.1 * p.size + c.2)
        (mkId p.size (add p x y).1.x (add p x y).1.y)
        (sqCells (add p x y).1) p.ids_transposed
    show (add p x y).2.ids_transposed.length = p.size * p.size
    rw [hl]
    exact h3

theorem addAll_cons (p : PumpkinPatch) (c : Nat × Nat)
    (rest : List (Nat × Nat)) :
    addAll p (c :: rest) = addAll (add p c.1 c.2).2 rest := rfl

theorem addAll_size : ∀ (order : List (Nat × Nat)) (p : PumpkinPatch),
    (addAll p order).size = p.size
  | [], _ => rfl
  | c :: rest, p => by
    rw [addAll_cons, addAll_size rest]
    rfl

theorem addAll_WF : ∀ (order : List (Nat × Nat)) (p : PumpkinPatch),
    p.WF → (addAll p order).WF
  | [], _, h => h
  | c :: rest, p, h => by
    rw [addAll_cons]
    exact addAll_WF rest _ (add_WF h c.1 c.2)

theorem add_contains_mono {p : PumpkinPatch} {x y cx cy : Nat}
    (h : p.containsCell cx cy = true) :
    (add p x y).2.containsCell cx cy = true := by
  replace h : p.bitmap.getD (cy * p.size + cx) false = true := h
  show (p.bitmap.set (p.index x y) true).getD (cy * p.size + cx) false = true
  have hlen : cy * p.size + cx < p.bitmap.length := by
    by_contra hc
    rw [List.getD_eq_default _ _ (Nat.le_of_not_lt hc)] at h
    cases h
  by_cases heq : p.index x y = cy * p.size + cx
  · rw [heq]
    exact getD_set_self hlen
  · rw [getD_set_ne heq]
    exact h

theorem add_contains_self (p : PumpkinPatch) (x y : Nat)
    (hx : x < p.size) (hy : y < p.size)
    (hlen : p.bitmap.length = p.size * p.size) :
    (add p x y).2.containsCell x y = true := by
  show (p.bitmap.set (p.index x y) true).getD (y * p.size + x) false = true
  rw [show p.index x y = y * p.size + x from rfl]
  exact getD_set_self (by rw [hlen]; exact cell_index_lt hx hy)

theorem addAll_preserves : ∀ (order : List (Nat × Nat)) (p : PumpkinPatch)
    {cx cy : Nat}, p.containsCell cx cy = true →
    (addAll p order).containsCell cx cy = true
  | [], _, _, _, h => h
  | c :: rest, p, _, _, h => by
    rw [addAll_cons]
    exact addAll_preserves rest _ (add_contains_mono h)

theorem addAll_covers : ∀ (order : List (Nat × Nat)) (p : PumpkinPatch),
    p.WF → (∀ c ∈ order, c.1 < p.size ∧ c.2 < p.size) →
    ∀ c ∈ order, (addAll p order).containsCell c.1 c.2 = true
  | [], _, _, _, c, hc => absurd hc (List.not_mem_nil c)
  | c0 :: rest, p, hwf, hin, c, hc => by
    rw [addAll_cons]
    rcases List.mem_cons.mp hc with rfl | hc2
    · exact addAll_preserves rest _ (add_contains_self p c.1 c.2
        (hin c (List.mem_cons_self _ _)).1 (hin c (List.mem_cons_self _ _)).2
        hwf.1)
    · refine addAll_covers rest _ (add_WF hwf c0.1 c0.2) ?_ c hc2
      intro d hd
      exact hin d (List.mem_cons_of_mem _ hd)

theorem mem_allCells {N : Nat} {c : Nat × Nat} :
    c ∈ allCells N ↔ c.1 < N ∧ c.2 < N := by
  obtain ⟨cx, cy⟩ := c
  simp only [allCells, List.mem_map, List.mem_range]
  constructor
  · rintro ⟨i, hi, heq⟩
    cases heq
    have hN : 0 < N := by
      rcases Nat.eq_zero_or_pos N with rfl | h
      · simp at hi
      · exact h
    exact ⟨Nat.mod_lt i hN, (Nat.div_lt_iff_lt_mul hN).mpr hi⟩
  · rintro ⟨h1, h2⟩
    refine ⟨cy * N + cx, cell_index_lt h1 h2, ?_⟩
    have e1 : (cy * N + cx) % N = cx := by
      rw [Nat.add_comm, Nat.add_mul_mod_self_right, Nat.mod_eq_of_lt h1]
    have e2 : (cy * N + cx) / N = cy := by
      rw [Nat.add_comm, Nat.add_mul_div_right _ _ (show 0 < N by omega),
        Nat.div_eq_of_lt h1, Nat.zero_add]
    rw [e1, e2]

theorem addTrace_snd_acc : ∀ (order : List (Nat × Nat)) (p : PumpkinPatch)
    (l : List Square),
    (order.foldl (fun acc c => (acc.1 ++ [(add acc.2 c.1 c.2).1],
      (add acc.2 c.1 c.2).2)) (l, p)).2 = addAll p order
  | [], _, _ => rfl
  | c :: rest, p, l => by
    rw [List.foldl_cons]
    exact addTrace_snd_acc rest (add p c.1 c.2).2 (l ++ [(add p c.1 c.2).1])

theorem addTrace_fst_acc : ∀ (order : List (Nat × Nat)) (p : PumpkinPatch)
    (l : List Square),
    (order.foldl (fun acc c => (acc.1 ++ [(add acc.2 c.1 c.2).1],
      (add acc.2 c.1 c.2).2)) (l, p)).1 = l ++ (addTrace p order).1
  | [], p, l => by simp [addTrace]
  | c :: rest, p, l => by
    rw [List.foldl_cons]
    have h1 := addTrace_fst_acc rest (add p c.1 c.2).2
      (l ++ [(add p c.1 c.2).1])
    have h3 : (addTrace p (c :: rest)).1 =
        [(add p c.1 c.2).1] ++ (addTrace (add p c.1 c.2).2 rest).1 :=
      addTrace_fst_acc rest (add p c.1 c.2).2 [(add p c.1 c.2).1]
    exact h1.trans (by rw [h3]; exact List.append_assoc _ _ _)

theorem addTrace_last (p : PumpkinPatch) (o : List (Nat × Nat))
    (c : Nat × Nat) :
    (addTrace p (o ++ [c])).1.getLast? =
      some (add (addAll p o) c.1 c.2).1 := by
  have h0 : (addTrace p (o ++ [c])).1 =
      ((o ++ [c]).foldl (fun acc d => (acc.1 ++ [(add acc.2 d.1 d.2).1],
        (add acc.2 d.1 d.2).2)) ([], p)).1 := rfl
  rw [h0, List.foldl_append, List.foldl_cons, List.foldl_nil]
  have hsnd := addTrace_snd_acc o p []
  show ((o.foldl (fun acc d => (acc.1 ++ [(add acc.2 d.1 d.2).1],
      (add acc.2 d.1 d.2).2)) ([], p)).1 ++
    [(add (o.foldl (fun acc d => (acc.1 ++ [(add acc.2 d.1 d.2).1],
      (add acc.2 d.1 d.2).2)) ([], p)).2 c.1 c.2).1]).getLast? = _
  rw [List.getLast?_concat, hsnd]

/-! ## Structural lemmas for the wrapping (u16) embedding -/

theorem searchLoopW_nil (p : PumpkinPatch) (fuel : Nat) (v : List Bool)
    (L : Square) : searchLoopW p fuel ⟨[], v, L⟩ = L := by
  cases fuel <;> rfl

theorem searchLoopW_zero (p : PumpkinPatch) (st : SearchState) :
    searchLoopW p 0 st = st.largest := by
  obtain ⟨stack, v, L⟩ := st
  cases stack <;> rfl

theorem searchLoopW_succ (p : PumpkinPatch) (fuel : Nat) (S : Square)
    (rest : List Square) (v : List Bool) (L : Square) :
    searchLoopW p (fuel + 1) ⟨S :: rest, v, L⟩ =
      searchLoopW p fuel (searchStepW p S ⟨rest, v, L⟩) := rfl

theorem searchStepW_skip {p : PumpkinPatch} {S : Square} (st : SearchState)
    (hb : andChanged (LookupTable.getBitmap p.size S) p.bitmap = true) :
    searchStepW p S st = st := by
  simp [searchStepW, hb]

theorem searchStepW_run {p : PumpkinPatch} {S : Square} {rest : List Square}
    {v : List Bool} {L : Square}
    (hb : andChanged (LookupTable.getBitmap p.size S) p.bitmap = false) :
    searchStepW p S ⟨rest, v, L⟩ =
      ⟨((LookupTable.getLarger p.size S).filter fun sq =>
          !(v.getD (sq.idx p.size) false)).reverse ++ rest,
        ((LookupTable.getLarger p.size S).filter fun sq =>
          !(v.getD (sq.idx p.size) false)).foldl
          (fun w sq => w.set (sq.idx p.size) true) v,
        if S.size > L.size && checkBoundaryW p S then S else L⟩ := by
  simp [searchStepW, hb]

theorem addW_def (p : PumpkinPatch) (x y : Nat) :
    addW p x y =
      ((searchLoopW { p with bitmap := p.bitmap.set (p.indexU x y) true }
          (p.size * p.size * p.size)
          ⟨[⟨x, y, 1⟩],
            (List.replicate (p.size * p.size * p.size) false).set
              (Square.idx ⟨x, y, 1⟩ p.size) true, ⟨x, y, 1⟩⟩),
        fillIdsW { p with bitmap := p.bitmap.set (p.indexU x y) true }
          (searchLoopW { p with bitmap := p.bitmap.set (p.indexU x y) true }
            (p.size * p.size * p.size)
            ⟨[⟨x, y, 1⟩],
              (List.replicate (p.size * p.size * p.size) false).set
                (Square.idx ⟨x, y, 1⟩ p.size) true, ⟨x, y, 1⟩⟩)
          (mkId p.size
            (searchLoopW { p with bitmap := p.bitmap.set (p.indexU x y) true }
              (p.size * p.size * p.size)
              ⟨[⟨x, y, 1⟩],
                (List.replicate (p.size * p.size * p.size) false).set
                  (Square.idx ⟨x, y, 1⟩ p.size) true, ⟨x, y, 1⟩⟩).x
            (searchLoopW { p with bitmap := p.bitmap.set (p.indexU x y) true }
              (p.size * p.size * p.size)
              ⟨[⟨x, y, 1⟩],
                (List.replicate (p.size * p.size * p.size) false).set
                  (Square.idx ⟨x, y, 1⟩ p.size) true, ⟨x, y, 1⟩⟩).y)) := rfl

theorem addAllW_cons (p : PumpkinPatch) (c : Nat × Nat)
    (rest : List (Nat × Nat)) :
    addAllW p (c :: rest) = addAllW (addW p c.1 c.2).2 rest := rfl

theorem addAllW_size : ∀ (order : List (Nat × Nat)) (p : PumpkinPatch),
    (addAllW p order).size = p.size
  | [], _ => rfl
  | c :: rest, p => by
    rw [addAllW_cons, addAllW_size rest]
    rfl

theorem addW_bitmap_length (p : PumpkinPatch) (x y : Nat) :
    (addW p x y).2.bitmap.length = p.bitmap.length := by
  show (p.bitmap.set (p.indexU x y) true).length = p.bitmap.length
  exact List.length_set _ _ _

theorem addAllW_bitmap_length :
    ∀ (order : List (Nat × Nat)) (p : PumpkinPatch),
      (addAllW p order).bitmap.length = p.bitmap.length
  | [], _ => rfl
  | c :: rest, p => by
    rw [addAllW_cons, addAllW_bitmap_length rest, addW_bitmap_length]

theorem addTraceW_snd_acc : ∀ (order : List (Nat × Nat)) (p : PumpkinPatch)
    (l : List Square),
    (order.foldl (fun acc c => (acc.1 ++ [(addW acc.2 c.1 c.2).1],
      (addW acc.2 c.1 c.2).2)) (l, p)).2 = addAllW p order
  | [], _, _ => rfl
  | c :: rest, p, l => by
    rw [List.foldl_cons]
    exact addTraceW_snd_acc rest (addW p c.1 c.2).2 (l ++ [(addW p c.1 c.2).1])

theorem addTraceW_last (p : PumpkinPatch) (o : List (Nat × Nat))
    (c : Nat × Nat) :
    (addTraceW p (o ++ [c])).1.getLast? =
      some (addW (addAllW p o) c.1 c.2).1 := by
  have h0 : (addTraceW p (o ++ [c])).1 =
      ((o ++ [c]).foldl (fun acc d => (acc.1 ++ [(addW acc.2 d.1 d.2).1],
        (addW acc.2 d.1 d.2).2)) ([], p)).1 := rfl
  rw [h0, List.foldl_append, List.foldl_cons, List.foldl_nil]
  have hsnd := addTraceW_snd_acc o p []
  show ((o.foldl (fun acc d => (acc.1 ++ [(addW acc.2 d.1 d.2).1],
      (addW acc.2 d.1 d.2).2)) ([], p)).1 ++
    [(addW (o.foldl (fun acc d => (acc.1 ++ [(addW acc.2 d.1 d.2).1],
      (addW acc.2 d.1 d.2).2)) ([], p)).2 c.1 c.2).1]).getLast? = _
  rw [List.getLast?_concat, hsnd]

/-! ## The wrapping and exact embeddings coincide for grid sides ≤ 256 -/

theorem sq_le_u16 {N : Nat} (hN : N ≤ 256) : N * N ≤ 65536 := by
  have := Nat.mul_le_mul hN hN
  omega

theorem northHitW_eq {p : PumpkinPatch} {sq : Square}
    (hN : p.size ≤ 256) (hv : sq.Valid p.size) :
    northHitW p sq = northHit p sq := by
  obtain ⟨h1, h2, h3⟩ := hv
  have hNN : p.size * p.size ≤ 65536 := sq_le_u16 hN
  have hx : sq.x < p.size := by omega
  unfold northHitW northHit
  by_cases hg : sq.y < p.size - sq.size
  · have hb1 : (sq.y + sq.size - 1) * p.size + sq.x < 65536 := by
      have := cell_index_lt hx (show sq.y + sq.size - 1 < p.size by omega)
      omega
    have hb2 : (sq.y + sq.size) * p.size + sq.x < 65536 := by
      have := cell_index_lt hx (show sq.y + sq.size < p.size by omega)
      omega
    rw [Nat.mod_eq_of_lt hb1, Nat.mod_eq_of_lt hb2]
  · simp [hg]

theorem southHitW_eq {p : PumpkinPatch} {sq : Square}
    (hN : p.size ≤ 256) (hv : sq.Valid p.size) :
    southHitW p sq = southHit p sq := by
  obtain ⟨h1, h2, h3⟩ := hv
  have hNN : p.size * p.size ≤ 65536 := sq_le_u16 hN
  have hx : sq.x < p.size := by omega
  have hb1 : sq.y * p.size + sq.x < 65536 := by
    have := cell_index_lt hx (show sq.y < p.size by omega)
    omega
  have hb2 : (sq.y - 1) * p.size + sq.x < 65536 := by
    have := cell_index_lt hx (show sq.y - 1 < p.size by omega)
    omega
  unfold southHitW southHit
  rw [Nat.mod_eq_of_lt hb1, Nat.mod_eq_of_lt hb2]

theorem eastHitW_eq {p : PumpkinPatch} {sq : Square}
    (hN : p.size ≤ 256) (hv : sq.Valid p.size) :
    eastHitW p sq = eastHit p sq := by
  obtain ⟨h1, h2, h3⟩ := hv
  have hNN : p.size * p.size ≤ 65536 := sq_le_u16 hN
  have hy : sq.y < p.size := by omega
  unfold eastHitW eastHit
  by_cases hg : sq.x < p.size - sq.size
  · have hb1 : (sq.x + sq.size - 1) * p.size + sq.y < 65536 := by
      have := cell_index_lt hy (show sq.x + sq.size - 1 < p.size by omega)
      omega
    have hb2 : (sq.x + sq.size) * p.size + sq.y < 65536 := by
      have := cell_index_lt hy (show sq.x + sq.size < p.size by omega)
      omega
    rw [Nat.mod_eq_of_lt hb1, Nat.mod_eq_of_lt hb2]
  · simp [hg]

theorem westHitW_eq {p : PumpkinPatch} {sq : Square}
    (hN : p.size ≤ 256) (hv : sq.Valid p.size) :
    westHitW p sq = westHit p sq := by
  obtain ⟨h1, h2, h3⟩ := hv
  have hNN : p.size * p.size ≤ 65536 := sq_le_u16 hN
  have hy : sq.y < p.size := by omega
  have hb1 : sq.x * p.size + sq.y < 65536 := by
    have := cell_index_lt hy (show sq.x < p.size by omega)
    omega
  have hb2 : (sq.x - 1) * p.size + sq.y < 65536 := by
    have := cell_index_lt hy (show sq.x - 1 < p.size by omega)
    omega
  unfold westHitW westHit
  rw [Nat.mod_eq_of_lt hb1, Nat.mod_eq_of_lt hb2]

theorem checkBoundaryW_eq {p : PumpkinPatch} {sq : Square}
    (hN : p.size ≤ 256) (hv : sq.Valid p.size) :
    checkBoundaryW p sq = checkBoundary p sq := by
  unfold checkBoundaryW checkBoundary
  rw [northHitW_eq hN hv, southHitW_eq hN hv, eastHitW_eq hN hv,
    westHitW_eq hN hv]

theorem searchStepW_eq {p : PumpkinPatch} {S : Square}
    (rest : List Square) (v : List Bool) (L : Square)
    (hN : p.size ≤ 256) (hv : S.Valid p.size) :
    searchStepW p S ⟨rest, v, L⟩ = searchStep p S ⟨rest, v, L⟩ := by
  rcases hb : andChanged (LookupTable.getBitmap p.size S) p.bitmap
  · rw [searchStepW_run hb, searchStep_run hb, checkBoundaryW_eq hN hv]
  · rw [searchStepW_skip _ hb, searchStep_skip _ hb]

theorem searchLoopW_eq {p : PumpkinPatch} (hN : p.size ≤ 256) :
    ∀ (fuel : Nat) (st : SearchState),
      (∀ T ∈ st.stack, T.Valid p.size) → st.largest.Valid p.size →
      searchLoopW p fuel st = searchLoop p fuel st
  | fuel, ⟨[], v, L⟩, _, _ => by rw [searchLoopW_nil, searchLoop_nil]
  | 0, ⟨S :: rest, v, L⟩, _, _ => by rw [searchLoopW_zero, searchLoop_zero]
  | fuel + 1, ⟨S :: rest, v, L⟩, hstack, hl => by
    rw [searchLoopW_succ, searchLoop_succ]
    have hS : S.Valid p.size := hstack S (List.mem_cons_self _ _)
    have hrest : ∀ T ∈ rest, T.Valid p.size := fun T hT =>
      hstack T (List.mem_cons_of_mem _ hT)
    rw [searchStepW_eq rest v L hN hS]
    obtain ⟨hstk2, hl2⟩ := searchStep_valid hS hrest hl
    exact searchLoopW_eq hN fuel _ hstk2 hl2

theorem foldl_congr_mem {α β : Type} :
    ∀ (l : List β) (f g : α → β → α) (a : α),
      (∀ (x : α) (b : β), b ∈ l → f x b = g x b) →
      l.foldl f a = l.foldl g a
  | [], _, _, _, _ => rfl
  | b :: l, f, g, a, h => by
    rw [List.foldl_cons, List.foldl_cons, h a b (List.mem_cons_self _ _)]
    exact foldl_congr_mem l f g _ fun x b' hb' =>
      h x b' (List.mem_cons_of_mem _ hb')

theorem fillIdsW_eq {p : PumpkinPatch} {sq : Square} {idv : Option Nat}
    (hN : p.size ≤ 256) (hv : sq.Valid p.size) :
    fillIdsW p sq idv = fillIds p sq idv := by
  obtain ⟨h1, h2, h3⟩ := hv
  have hNN : p.size * p.size ≤ 65536 := sq_le_u16 hN
  have hA : (sqCells sq).foldl
      (fun l c => l.set ((c.2 * p.size + c.1) % 65536) idv) p.ids =
      (sqCells sq).foldl
        (fun l c => l.set (c.2 * p.size + c.1) idv) p.ids := by
    refine foldl_congr_mem _ _ _ _ ?_
    intro w c hc
    have hcc := contains_iff.mp (mem_sqCells.mp hc)
    have hlt : c.2 * p.size + c.1 < 65536 := by
      have := cell_index_lt (show c.1 < p.size by omega)
        (show c.2 < p.size by omega)
      omega
    rw [Nat.mod_eq_of_lt hlt]
  have hB : (sqCells sq).foldl
      (fun l c => l.set ((c.1 * p.size + c.2) % 65536) idv) p.ids_transposed =
      (sqCells sq).foldl
        (fun l c => l.set (c.1 * p.size + c.2) idv) p.ids_transposed := by
    refine foldl_congr_mem _ _ _ _ ?_
    intro w c hc
    have hcc := contains_iff.mp (mem_sqCells.mp hc)
    have hlt : c.1 * p.size + c.2 < 65536 := by
      have := cell_index_lt (show c.2 < p.size by omega)
        (show c.1 < p.size by omega)
      omega
    rw [Nat.mod_eq_of_lt hlt]
  unfold fillIdsW fillIds
  rw [hA, hB]

theorem addW_eq {p : PumpkinPatch} {x y : Nat} (hN : p.size ≤ 256)
    (hx : x < p.size) (hy : y < p.size) :
    addW p x y = add p x y := by
  have hNN : p.size * p.size ≤ 65536 := sq_le_u16 hN
  have hidx : p.indexU x y = p.index x y := by
    show (y * p.size + x) % 65536 = y * p.size + x
    have := cell_index_lt hx hy
    exact Nat.mod_eq_of_lt (by omega)
  have hstart : (⟨x, y, 1⟩ : Square).Valid p.size :=
    ⟨Nat.le_refl 1, by show x + 1 ≤ p.size; omega,
      by show y + 1 ≤ p.size; omega⟩
  have hstk : ∀ T ∈ [(⟨x, y, 1⟩ : Square)], T.Valid p.size := by
    intro T hT
    rcases List.mem_cons.mp hT with rfl | hT
    · exact hstart
    · exact absurd hT (List.not_mem_nil T)
  rw [addW_def, add_def, hidx]
  have hloop := @searchLoopW_eq
    { p with bitmap := p.bitmap.set (p.index x y) true } hN
    (p.size * p.size * p.size)
    ⟨[⟨x, y, 1⟩],
      (List.replicate (p.size * p.size * p.size) false).set
        (Square.idx ⟨x, y, 1⟩ p.size) true, ⟨x, y, 1⟩⟩ hstk hstart
  rw [hloop]
  have hLval := @searchLoop_valid
    { p with bitmap := p.bitmap.set (p.index x y) true }
    (p.size * p.size * p.size)
    ⟨[⟨x, y, 1⟩],
      (List.replicate (p.size * p.size * p.size) false).set
        (Square.idx ⟨x, y, 1⟩ p.size) true, ⟨x, y, 1⟩⟩ hstk hstart
  rw [@fillIdsW_eq { p with bitmap := p.bitmap.set (p.index x y) true }
    _ _ hN hLval]

theorem addTraceW_fold_eq :
    ∀ (order : List (Nat × Nat)) (p : PumpkinPatch) (l : List Square),
      p.size ≤ 256 → (∀ c ∈ order, c.1 < p.size ∧ c.2 < p.size) →
      order.foldl (fun acc c => (acc.1 ++ [(addW acc.2 c.1 c.2).1],
        (addW acc.2 c.1 c.2).2)) (l, p) =
      order.foldl (fun acc c => (acc.1 ++ [(add acc.2 c.1 c.2).1],
        (add acc.2 c.1 c.2).2)) (l, p)
  | [], _, _, _, _ => rfl
  | c :: rest, p, l, hN, hin => by
    have he : addW p c.1 c.2 = add p c.1 c.2 :=
      addW_eq hN (hin c (List.mem_cons_self _ _)).1
        (hin c (List.mem_cons_self _ _)).2
    show rest.foldl (fun acc c => (acc.1 ++ [(addW acc.2 c.1 c.2).1],
        (addW acc.2 c.1 c.2).2))
        (l ++ [(addW p c.1 c.2).1], (addW p c.1 c.2).2) =
      rest.foldl (fun acc c => (acc.1 ++ [(add acc.2 c.1 c.2).1],
        (add acc.2 c.1 c.2).2))
        (l ++ [(add p c.1 c.2).1], (add p c.1 c.2).2)
    rw [he]
    exact addTraceW_fold_eq rest (add p c.1 c.2).2 (l ++ [(add p c.1 c.2).1])
      hN fun d hd => hin d (List.mem_cons_of_mem _ hd)

theorem addTraceW_eq (order : List (Nat × Nat)) (p : PumpkinPatch)
    (hN : p.size ≤ 256)
    (hin : ∀ c ∈ order, c.1 < p.size ∧ c.2 < p.size) :
    addTraceW p order = addTrace p order :=
  addTraceW_fold_eq order p [] hN hin

/-! ## The wrap at grid side 257: high occupancy bits are unreachable -/

theorem indexU_lt (p : PumpkinPatch) (x y : Nat) : p.indexU x y < 65536 :=
  Nat.mod_lt _ (by omega)

theorem addW_bitmap_high {p : PumpkinPatch} {x y j : Nat} (hj : 65536 ≤ j)
    (h : p.bitmap.getD j false = false) :
    (addW p x y).2.bitmap.getD j false = false := by
  show (p.bitmap.set (p.indexU x y) true).getD j false = false
  rw [getD_set_ne (by have := indexU_lt p x y; omega)]
  exact h

theorem addAllW_bitmap_high :
    ∀ (order : List (Nat × Nat)) (p : PumpkinPatch) {j : Nat},
      65536 ≤ j → p.bitmap.getD j false = false →
      (addAllW p order).bitmap.getD j false = false
  | [], _, _, _, h => h
  | c :: rest, p, j, hj, h => by
    rw [addAllW_cons]
    exact addAllW_bitmap_high rest _ hj (addW_bitmap_high hj h)

theorem full_square_unplanted_257 {p : PumpkinPatch} (hsz : p.size = 257)
    (hblen : p.bitmap.length = 257 * 257)
    (hhigh : p.bitmap.getD 66048 false = false) :
    andChanged (LookupTable.getBitmap p.size (fullSq 257)) p.bitmap = true := by
  rw [hsz]
  unfold andChanged
  refine (zip_any_iff false false).mpr ⟨66048, ?_, ?_, ?_⟩
  · show (66048 : Nat) < (Square.bitmap (fullSq 257) 257).length
    simp only [Square.bitmap, List.length_map, List.length_range]
    omega
  · omega
  · have hbit : (LookupTable.getBitmap 257 (fullSq 257)).getD 66048 false =
        true := by
      show (Square.bitmap (fullSq 257) 257).getD 66048 false = true
      rw [bitmap_getD (show (66048 : Nat) < 257 * 257 by omega)]
      decide
    dsimp only
    rw [hbit, hhigh]
    rfl

theorem searchStepW_not_full_257 {p : PumpkinPatch} (hsz : p.size = 257)
    (hblen : p.bitmap.length = 257 * 257)
    (hhigh : p.bitmap.getD 66048 false = false)
    {S : Square} {rest : List Square} {v : List Bool} {L : Square}
    (hS : S.Valid 257) (hrest : ∀ T ∈ rest, T.Valid 257)
    (hL : L.size < 257) :
    (∀ T ∈ (searchStepW p S ⟨rest, v, L⟩).stack, T.Valid 257) ∧
      (searchStepW p S ⟨rest, v, L⟩).largest.size < 257 := by
  rcases hb : andChanged (LookupTable.getBitmap p.size S) p.bitmap
  · rw [searchStepW_run hb]
    constructor
    · intro T hT
      rcases List.mem_append.mp hT with hT | hT
      · have hS' : S.Valid p.size := by rw [hsz]; exact hS
        have hv2 := nextLarger_valid hS'
          (List.mem_filter.mp (List.mem_reverse.mp hT)).1
        rw [hsz] at hv2
        exact hv2
      · exact hrest T hT
    · dsimp only
      rcases hc : (S.size > L.size && checkBoundaryW p S)
      · simpa using hL
      · have hlt : S.size < 257 := by
          rcases Nat.lt_or_ge S.size 257 with h | h
          · exact h
          · exfalso
            have hS257 : S.size = 257 := by
              obtain ⟨a1, a2, a3⟩ := hS
              omega
            have hfull : S = fullSq 257 := valid_size_eq_full hS hS257
            have htrue := full_square_unplanted_257 hsz hblen hhigh
            rw [← hfull] at htrue
            rw [htrue] at hb
            cases hb
        simpa using hlt
  · rw [searchStepW_skip _ hb]
    exact ⟨hrest, hL⟩

theorem searchLoopW_not_full_257 {p : PumpkinPatch} (hsz : p.size = 257)
    (hblen : p.bitmap.length = 257 * 257)
    (hhigh : p.bitmap.getD 66048 false = false) :
    ∀ (fuel : Nat) (st : SearchState),
      (∀ T ∈ st.stack, T.Valid 257) → st.largest.size < 257 →
      (searchLoopW p fuel st).size < 257
  | fuel, ⟨[], v, L⟩, _, hL => by
    rw [searchLoopW_nil]
    exact hL
  | 0, ⟨S :: rest, v, L⟩, _, hL => by
    rw [searchLoopW_zero]
    exact hL
  | fuel + 1, ⟨S :: rest, v, L⟩, hstack, hL => by
    rw [searchLoopW_succ]
    obtain ⟨h1, h2⟩ := searchStepW_not_full_257 hsz hblen hhigh
      (hstack S (List.mem_cons_self _ _))
      (fun T hT => hstack T (List.mem_cons_of_mem _ hT)) hL
    exact searchLoopW_not_full_257 hsz hblen hhigh fuel _ h1 h2

/-! ## Claim C4 -/

/-- Full-grid merge over the exact-index embedding: for every grid side
N ≥ 1 and every insertion order that plants all N² cells of a fresh
patch exactly once, the final insertion returns the size-N square. The
claim uses this through the coincidence of the exact and wrapping
embeddings on grid sides ≤ 256 (`addTraceW_eq`); for larger grids the
exact reading is not faithful to the source's u16 arithmetic. -/
theorem full_grid_final_merge_exact (N : Nat) (hN : 1 ≤ N)
    (order : List (Nat × Nat)) (hperm : order.Perm (allCells N)) :
    (addTrace (PumpkinPatch.new N) order).1.getLast? = some (fullSq N) := by
  have hlen : order.length = N * N := by
    rw [hperm.length_eq]
    simp [allCells]
  have hNN : 1 ≤ N * N := by
    have := Nat.mul_le_mul hN hN
    simpa using this
  have hne : order ≠ [] := by
    intro h
    rw [h] at hlen
    simp at hlen
    omega
  obtain ⟨o, c, rfl⟩ : ∃ o c, order = o ++ [c] :=
    ⟨order.dropLast, order.getLast hne, (List.dropLast_append_getLast hne).symm⟩
  rw [addTrace_last]
  have hin : ∀ d ∈ o ++ [c], d.1 < N ∧ d.2 < N := fun d hd =>
    mem_allCells.mp (hperm.mem_iff.mp hd)
  have hq_size : (addAll (PumpkinPatch.new N) o).size = N :=
    addAll_size o (PumpkinPatch.new N)
  have hq_wf : (addAll (PumpkinPatch.new N) o).WF :=
    addAll_WF o _ (new_WF N)
  have hcov := addAll_covers o (PumpkinPatch.new N) (new_WF N)
    (fun d hd => hin d (List.mem_append_left _ hd))
  obtain ⟨q, hqdef⟩ : ∃ q, addAll (PumpkinPatch.new N) o = q := ⟨_, rfl⟩
  rw [hqdef] at hq_size hq_wf hcov ⊢
  have hc1 : c.1 < N := (hin c (List.mem_append_right _ (List.mem_cons_self _ _))).1
  have hc2 : c.2 < N := (hin c (List.mem_append_right _ (List.mem_cons_self _ _))).2
  have hc1q : c.1 < q.size := by rw [hq_size]; exact hc1
  have hc2q : c.2 < q.size := by rw [hq_size]; exact hc2
  have hq1 : 1 ≤ q.size := by rw [hq_size]; exact hN
  have hstart_valid : Square.Valid q.size ⟨c.1, c.2, 1⟩ :=
    ⟨Nat.le_refl 1, by show c.1 + 1 ≤ q.size; omega,
      by show c.2 + 1 ≤ q.size; omega⟩
  have hall : ∀ cx cy, cx < q.size → cy < q.size →
      (add q c.1 c.2).2.containsCell cx cy = true := by
    intro cx cy hcx hcy
    rw [hq_size] at hcx hcy
    have hmem : (cx, cy) ∈ o ++ [c] :=
      hperm.mem_iff.mpr (mem_allCells.mpr ⟨hcx, hcy⟩)
    rcases List.mem_append.mp hmem with hmo | hmc
    · exact add_contains_mono (hcov (cx, cy) hmo)
    · have hec : (cx, cy) = c := by simpa using hmc
      have e1 : cx = c.1 := congrArg Prod.fst hec
      have e2 : cy = c.2 := congrArg Prod.snd hec
      rw [e1, e2]
      exact add_contains_self q c.1 c.2 hc1q hc2q hq_wf.1
  have hfull : (add q c.1 c.2).1 = fullSq q.size := by
    rw [add_def]
    refine @searchLoop_full
      { q with bitmap := q.bitmap.set (q.index c.1 c.2) true }
      ⟨?_, hq_wf.2.1, hq_wf.2.2⟩
      (fun cx cy hcx hcy => hall cx cy hcx hcy) _ _ ⟨?_, ?_, ?_, ?_⟩ ?_
    · show (q.bitmap.set (q.index c.1 c.2) true).length = q.size * q.size
      rw [List.length_set]
      exact hq_wf.1
    · intro T hT
      rcases List.mem_cons.mp hT with rfl | hT
      · exact hstart_valid
      · exact absurd hT (List.not_mem_nil T)
    · exact hstart_valid
    · show ((List.replicate (q.size * q.size * q.size) false).set
        (Square.idx ⟨c.1, c.2, 1⟩ q.size) true).length =
          q.size * q.size * q.size
      rw [List.length_set, List.length_replicate]
    · by_cases hN1 : q.size = 1
      · left
        show (⟨c.1, c.2, 1⟩ : Square) = fullSq q.size
        have e1 : c.1 = 0 := by omega
        have e2 : c.2 = 0 := by omega
        rw [e1, e2, hN1]
        rfl
      · right
        refine ⟨⟨c.1, c.2, 1⟩, List.mem_cons_self _ _,
          q.size - 1, growChain q.size c.1 c.2, rfl,
          growChain_full q.size c.1 c.2 hc1q hc2q hq1, ?_, ?_, ?_⟩
        · intro i hi
          exact growChain_mem q.size c.1 c.2 hc1q hc2q i (by omega)
        · intro i hi hik
          have hvalid_i : Square.Valid q.size (growChain q.size c.1 c.2 i) :=
            growChain_valid q.size c.1 c.2 hc1q hc2q i (by omega)
          have hidxne : Square.idx ⟨c.1, c.2, 1⟩ q.size ≠
              (growChain q.size c.1 c.2 i).idx q.size := by
            intro he
            have heqs := idx_inj hstart_valid hvalid_i he
            have hsz := congrArg Square.size heqs
            have hone : (1 : Nat) = i + 1 := by
              simpa [growChain_size] using hsz
            omega
          show ((List.replicate (q.size * q.size * q.size) false).set
            (Square.idx ⟨c.1, c.2, 1⟩ q.size) true).getD
              ((growChain q.size c.1 c.2 i).idx q.size) false = false
          rw [getD_set_ne hidxne]
          exact getD_replicate
        · intro i hik
          exact growChain_valid q.size c.1 c.2 hc1q hc2q i (by omega)
    · have hidxlt : Square.idx ⟨c.1, c.2, 1⟩ q.size <
          q.size * q.size * q.size := idx_lt hstart_valid
      have hrep : (List.replicate (q.size * q.size * q.size) false).getD
          (Square.idx ⟨c.1, c.2, 1⟩ q.size) false = false := getD_replicate
      have hcount := count_false_set
        (by rw [List.length_replicate]; exact hidxlt) hrep
      have hM : (List.replicate (q.size * q.size * q.size) false).count false =
          q.size * q.size * q.size := List.count_replicate_self _ _
      show ([(⟨c.1, c.2, 1⟩ : Square)].length) + unvisitedCount
        ((List.replicate (q.size * q.size * q.size) false).set
          (Square.idx ⟨c.1, c.2, 1⟩ q.size) true) ≤ q.size * q.size * q.size
      unfold unvisitedCount
      simp only [List.length_cons, List.length_nil]
      omega
  rw [hfull, hq_size]

/-- C4 counterexample: the original claim ranges over every N ≥ 1, but it
fails at grid side 257 (the first side whose largest cell index
`257² − 1 = 66048` reaches 2^16). Every occupancy bit an insertion can
set sits at the u16-wrapped index `(y·257 + x) % 2^16 < 2^16`, while the
size-257 square's lookup-table bitmap has bit 66048 (cell (256, 256))
set, so that square never passes the fully-planted test; planting all
257² cells in row-major order therefore ends with a final insertion that
does not return the full-grid square (debug builds panic on the same u16
multiplication overflow instead of wrapping). -/
theorem full_grid_merge_wraps_at_257 :
    (1 : Nat) ≤ 257 ∧ (allCells 257).Perm (allCells 257) ∧
      (addTraceW (PumpkinPatch.new 257) (allCells 257)).1.getLast? ≠
        some (fullSq 257) := by
  refine ⟨by omega, List.Perm.refl _, ?_⟩
  obtain ⟨l, hldef⟩ : ∃ l, allCells 257 = l := ⟨_, rfl⟩
  have hne : l ≠ [] := by
    have hl : l.length = 257 * 257 := by
      rw [← hldef]
      simp [allCells]
    intro h
    rw [h] at hl
    simp at hl
  obtain ⟨o, c, hoc⟩ : ∃ o c, l = o ++ [c] :=
    ⟨l.dropLast, l.getLast hne, (List.dropLast_append_getLast hne).symm⟩
  have hc : c ∈ allCells 257 := by
    rw [hldef, hoc]
    exact List.mem_append_right _ (List.mem_cons_self _ _)
  have hcr := mem_allCells.mp hc
  rw [hldef, hoc, addTraceW_last]
  obtain ⟨q, hqdef⟩ : ∃ q, addAllW (PumpkinPatch.new 257) o = q := ⟨_, rfl⟩
  rw [hqdef]
  have hsz : q.size = 257 := by
    rw [← hqdef]
    exact addAllW_size o _
  have hblen : q.bitmap.length = 257 * 257 := by
    rw [← hqdef, addAllW_bitmap_length]
    show (List.replicate (257 * 257) false).length = 257 * 257
    rw [List.length_replicate]
  have hhigh : q.bitmap.getD 66048 false = false := by
    rw [← hqdef]
    refine addAllW_bitmap_high o _ (by omega) ?_
    show (List.replicate (257 * 257) false).getD 66048 false = false
    exact getD_replicate
  intro heq
  have heq2 : (addW q c.1 c.2).1 = fullSq 257 := Option.some.inj heq
  have hsz1 : ({ q with bitmap := q.bitmap.set (q.indexU c.1 c.2) true } :
      PumpkinPatch).size = 257 := hsz
  have hblen1 : ({ q with bitmap := q.bitmap.set (q.indexU c.1 c.2) true } :
      PumpkinPatch).bitmap.length = 257 * 257 := by
    show (q.bitmap.set (q.indexU c.1 c.2) true).length = 257 * 257
    rw [List.length_set]
    exact hblen
  have hhigh1 : ({ q with bitmap := q.bitmap.set (q.indexU c.1 c.2) true } :
      PumpkinPatch).bitmap.getD 66048 false = false := by
    show (q.bitmap.set (q.indexU c.1 c.2) true).getD 66048 false = false
    rw [getD_set_ne (by have := indexU_lt q c.1 c.2; omega)]
    exact hhigh
  have hstk : ∀ T ∈ [(⟨c.1, c.2, 1⟩ : Square)], T.Valid 257 := by
    intro T hT
    rcases List.mem_cons.mp hT with rfl | hT
    · exact ⟨Nat.le_refl 1, by show c.1 + 1 ≤ 257; omega,
        by show c.2 + 1 ≤ 257; omega⟩
    · exact absurd hT (List.not_mem_nil T)
  have hstart : (⟨c.1, c.2, 1⟩ : Square).size < 257 := by
    show (1 : Nat) < 257
    omega
  have hlt : (addW q c.1 c.2).1.size < 257 := by
    rw [addW_def]
    exact searchLoopW_not_full_257 hsz1 hblen1 hhigh1
      (q.size * q.size * q.size)
      ⟨[⟨c.1, c.2, 1⟩],
        (List.replicate (q.size * q.size * q.size) false).set
          (Square.idx ⟨c.1, c.2, 1⟩ q.size) true, ⟨c.1, c.2, 1⟩⟩
      hstk hstart
  rw [heq2] at hlt
  exact absurd hlt (Nat.lt_irrefl 257)

/-- C4 (amended): for every grid side N with 1 ≤ N ≤ 256 — the range in
which the source's u16 cell-index arithmetic `y · size + x` cannot wrap,
since the largest cell index is N² − 1 ≤ 65535 — and every insertion
order that plants all N² cells of a fresh N×N patch exactly once, the
final insertion returns the square of size N spanning the whole grid.
Stated over the wrapping embedding `addTraceW`, which carries the
source's u16 index arithmetic at every grid side; the original claim's
range "every N ≥ 1" is refuted at N = 257 by
`full_grid_merge_wraps_at_257`. -/
theorem full_grid_final_merge_u16 (N : Nat) (hN : 1 ≤ N) (hNle : N ≤ 256)
    (order : List (Nat × Nat)) (hperm : order.Perm (allCells N)) :
    (addTraceW (PumpkinPatch.new N) order).1.getLast? = some (fullSq N) := by
  rw [addTraceW_eq order (PumpkinPatch.new N) hNle
    (fun c hc => mem_allCells.mp (hperm.mem_iff.mp hc))]
  exact full_grid_final_merge_exact N hN order hperm

/-- C4 witness: a 2×2 grid filled in a concrete order; the final
insertion returns the full square. -/
theorem full_grid_final_merge_u16_witness :
    (1 ≤ 2 ∧ 2 ≤ 256 ∧
      ([(0, 0), (1, 1), (0, 1), (1, 0)] : List (Nat × Nat)).Perm
        (allCells 2)) ∧
    (addTraceW (PumpkinPatch.new 2)
      [(0, 0), (1, 1), (0, 1), (1, 0)]).1.getLast? = some (fullSq 2) :=
  ⟨⟨by decide, by decide, by decide⟩,
    full_grid_final_merge_u16 2 (by decide) (by decide) _ (by decide)⟩

/-! ## Claim C10 -/

/-- C10: the only state changes made by an insert on an in-range unplanted
cell are: the occupancy bit of `(x, y)` is set, and the `ids` /
`ids_transposed` entries of the cells inside the returned square are set
to the returned square's identity; the occupancy bits and identities of
every other cell and the grid size are unchanged (the shared LookupTable
is immutable data outside the mutable state in this embedding, and `add`
only reads it). -/
theorem add_frame (p : PumpkinPatch) (x y : Nat) (hwf : p.WF)
    (hx : x < p.size) (hy : y < p.size)
    (hun : p.containsCell x y = false) :
    (add p x y).2.size = p.size ∧
    (∀ cx cy, cx < p.size → cy < p.size →
      (add p x y).2.containsCell cx cy =
        (p.containsCell cx cy || (decide (cx = x) && decide (cy = y)))) ∧
    (∀ cx cy, cx < p.size → cy < p.size →
      (add p x y).1.contains cx cy = true →
      (add p x y).2.ids.getD (cy * p.size + cx) none =
          mkId p.size (add p x y).1.x (add p x y).1.y ∧
        (add p x y).2.ids_transposed.getD (cx * p.size + cy) none =
          mkId p.size (add p x y).1.x (add p x y).1.y) ∧
    (∀ cx cy, cx < p.size → cy < p.size →
      (add p x y).1.contains cx cy = false →
      (add p x y).2.ids.getD (cy * p.size + cx) none =
          p.ids.getD (cy * p.size + cx) none ∧
        (add p x y).2.ids_transposed.getD (cx * p.size + cy) none =
          p.ids_transposed.getD (cx * p.size + cy) none) := by
  obtain ⟨hbl, hil, htl⟩ := hwf
  have hval : (add p x y).1.Valid p.size := add_largest_valid p x y hx hy
  refine ⟨rfl, ?_, ?_, ?_⟩
  · intro cx cy hcx hcy
    show (p.bitmap.set (p.index x y) true).getD (cy * p.size + cx) false =
      (p.containsCell cx cy || (decide (cx = x) && decide (cy = y)))
    by_cases hxy : cx = x ∧ cy = y
    · obtain ⟨rfl, rfl⟩ := hxy
      rw [show p.index cx cy = cy * p.size + cx from rfl]
      rw [getD_set_self (by rw [hbl]; exact cell_index_lt hcx hcy)]
      simp
    · have hne : p.index x y ≠ cy * p.size + cx := by
        show y * p.size + x ≠ cy * p.size + cx
        intro h
        obtain ⟨e1, e2⟩ := rowIndex_inj hx hcx h
        exact hxy ⟨e2.symm, e1.symm⟩
      rw [getD_set_ne hne]
      have hrhs : (decide (cx = x) && decide (cy = y)) = false := by
        by_cases h1 : cx = x
        · have h2 : ¬cy = y := fun h2 => hxy ⟨h1, h2⟩
          simp [h2]
        · simp [h1]
      rw [hrhs, Bool.or_false]
      rfl
  · intro cx cy hcx hcy hin
    exact (fillIds_cells { p with bitmap := p.bitmap.set (p.index x y) true }
      (add p x y).1 (mkId p.size (add p x y).1.x (add p x y).1.y) cx cy
      hval hil htl hcx hcy).1 hin
  · intro cx cy hcx hcy hout
    exact (fillIds_cells { p with bitmap := p.bitmap.set (p.index x y) true }
      (add p x y).1 (mkId p.size (add p x y).1.x (add p x y).1.y) cx cy
      hval hil htl hcx hcy).2 hout

/-- C10 witness: the frame conditions at the first insertion (0, 0) on an
empty 2×2 patch. -/
theorem add_frame_witness :
    ((PumpkinPatch.new 2).WF ∧ (0 : Nat) < 2 ∧
      (PumpkinPatch.new 2).containsCell 0 0 = false) ∧
    ((add (PumpkinPatch.new 2) 0 0).2.size = (PumpkinPatch.new 2).size ∧
    (∀ cx cy, cx < 2 → cy < 2 →
      (add (PumpkinPatch.new 2) 0 0).2.containsCell cx cy =
        ((PumpkinPatch.new 2).containsCell cx cy ||
          (decide (cx = 0) && decide (cy = 0)))) ∧
    (∀ cx cy, cx < 2 → cy < 2 →
      (add (PumpkinPatch.new 2) 0 0).1.contains cx cy = true →
      (add (PumpkinPatch.new 2) 0 0).2.ids.getD (cy * 2 + cx) none =
          mkId 2 (add (PumpkinPatch.new 2) 0 0).1.x
            (add (PumpkinPatch.new 2) 0 0).1.y ∧
        (add (PumpkinPatch.new 2) 0 0).2.ids_transposed.getD (cx * 2 + cy) none =
          mkId 2 (add (PumpkinPatch.new 2) 0 0).1.x
            (add (PumpkinPatch.new 2) 0 0).1.y) ∧
    (∀ cx cy, cx < 2 → cy < 2 →
      (add (PumpkinPatch.new 2) 0 0).1.contains cx cy = false →
      (add (PumpkinPatch.new 2) 0 0).2.ids.getD (cy * 2 + cx) none =
          (PumpkinPatch.new 2).ids.getD (cy * 2 + cx) none ∧
        (add (PumpkinPatch.new 2) 0 0).2.ids_transposed.getD (cx * 2 + cy) none =
          (PumpkinPatch.new 2).ids_transposed.getD (cx * 2 + cy) none)) :=
  ⟨⟨by decide, by decide, by decide⟩,
    add_frame (PumpkinPatch.new 2) 0 0 (by decide) (by decide) (by decide)
      (by decide)⟩

end Pumpkins

